import Mathlib

/-!
# BBMesh TradeWars plugin — verification of the spec claims

Shallow embedding of the TradeWars game engine of the BBMesh repository
(`plugins/bbmesh_tradewars_plugin/`): universe generation and validation
(`universe.py`), shortest-path navigation (`universe.py`), the trade
calculator (`trade_calculator.py`), the storage row model (`storage.py`)
and the session state machine handlers (`tradewars_plugin.py`).

Conventions of the embedding:
* Python's `random` module is modelled by an explicit stream of natural
  numbers (`Rng`).  `random.randint(a, b)` consumes one draw and maps it
  into `[a, b]`; `random.random()` and `random.uniform` consume one draw
  and map it to a rational in the target interval; `random.choice` over a
  two-element list consumes one draw and looks at its parity.  Every
  observable branch of the Python code is reachable for a suitable stream,
  and all theorems about random outcomes quantify over every stream.
* Python floats holding prices are modelled as rationals; `round(x, 1)`
  (banker's rounding to one decimal) is `round1`, built on `pyRound`,
  round-half-to-even to an integer.
* Python dicts keyed by commodity name or sector id are modelled as total
  functions updated with `upd`; a dict whose key may be absent maps to an
  `Option` codomain.
-/

namespace BBMesh

/-- Pointwise update of a total map, the value-semantics of a Python dict
assignment `d[k] = v`. -/
def upd {κ α : Type} [DecidableEq κ] (f : κ → α) (k : κ) (v : α) : κ → α :=
  fun x => if x = k then v else f x

theorem upd_same {κ α : Type} [DecidableEq κ] (f : κ → α) (k : κ) (v : α) :
    upd f k v k = v := by simp [upd]

theorem upd_ne {κ α : Type} [DecidableEq κ] (f : κ → α) (k : κ) (v : α)
    {x : κ} (h : x ≠ k) : upd f k v x = f x := by simp [upd, h]

/-- Model of Python's `random` source: a stream of natural draws plus a
cursor.  Each primitive of the `random` module consumes one draw. -/
structure Rng where
  seq : Nat → Nat
  idx : Nat

/-- Consume one raw draw. -/
def Rng.next (r : Rng) : Nat × Rng :=
  (r.seq r.idx, ⟨r.seq, r.idx + 1⟩)

/-- `random.randint(lo, hi)`: one draw mapped into `[lo, hi]`. -/
def randint (lo hi : Nat) (r : Rng) : Nat × Rng :=
  ((r.next).1 % (hi + 1 - lo) + lo, (r.next).2)

theorem randint_ge (lo hi : Nat) (r : Rng) : lo ≤ (randint lo hi r).1 := by
  simp [randint]

theorem randint_le (lo hi : Nat) (r : Rng) (h : lo ≤ hi) :
    (randint lo hi r).1 ≤ hi := by
  have hpos : 0 < hi + 1 - lo := by omega
  have := Nat.mod_lt ((r.next).1) hpos
  simp only [randint]
  omega

/-- `random.random()`: one draw mapped into `[0, 1)` (granularity 1/1000 is
enough to realize every branch of the embedded code). -/
def randFrac (r : Rng) : ℚ × Rng :=
  ((((r.next).1 % 1000 : ℕ) : ℚ) / 1000, (r.next).2)

theorem randFrac_nonneg (r : Rng) : 0 ≤ (randFrac r).1 := by
  simp only [randFrac]
  positivity

theorem randFrac_lt_one (r : Rng) : (randFrac r).1 < 1 := by
  have h : ((r.next).1 % 1000 : ℕ) < 1000 := Nat.mod_lt _ (by norm_num)
  have h' : (((r.next).1 % 1000 : ℕ) : ℚ) < 1000 := by exact_mod_cast h
  simp only [randFrac]
  linarith

/-- `random.uniform(lo, hi)`: one draw mapped into `[lo, hi)`. -/
def uniformQ (lo hi : ℚ) (r : Rng) : ℚ × Rng :=
  (lo + (hi - lo) * (randFrac r).1, (randFrac r).2)

theorem uniformQ_ge (lo hi : ℚ) (r : Rng) (h : lo ≤ hi) :
    lo ≤ (uniformQ lo hi r).1 := by
  have h0 := randFrac_nonneg r
  simp only [uniformQ]
  nlinarith

theorem uniformQ_lt (lo hi : ℚ) (r : Rng) (h : lo < hi) :
    (uniformQ lo hi r).1 < hi := by
  have h1 := randFrac_lt_one r
  have h0 := randFrac_nonneg r
  simp only [uniformQ]
  nlinarith

/-- Python's built-in `round` to an integer: round half to even. -/
def pyRound (x : ℚ) : ℤ :=
  if x - ⌊x⌋ < 1/2 then ⌊x⌋
  else if 1/2 < x - ⌊x⌋ then ⌊x⌋ + 1
  else if ⌊x⌋ % 2 = 0 then ⌊x⌋ else ⌊x⌋ + 1

theorem pyRound_le (x : ℚ) : (pyRound x : ℚ) ≤ x + 1/2 := by
  have h1 : (⌊x⌋ : ℚ) ≤ x := Int.floor_le x
  have h2 : x < ⌊x⌋ + 1 := Int.lt_floor_add_one x
  unfold pyRound
  split_ifs <;> push_cast <;> linarith

theorem le_pyRound (x : ℚ) : x - 1/2 ≤ (pyRound x : ℚ) := by
  have h1 : (⌊x⌋ : ℚ) ≤ x := Int.floor_le x
  have h2 : x < ⌊x⌋ + 1 := Int.lt_floor_add_one x
  unfold pyRound
  split_ifs <;> push_cast <;> linarith

/-- Python's `round(x, 1)`: round to one decimal, half to even. -/
def round1 (x : ℚ) : ℚ :=
  (pyRound (x * 10) : ℚ) / 10

/-- The one-decimal rounding of a value clamped into `[k/2, 2k]`, for an
integer bound `k ≥ 0`, stays inside `[k/2, 2k]` (both endpoints are
multiples of 1/10 because `k` is an integer). -/
theorem pyRound_intCast (n : ℤ) : pyRound ((n : ℤ) : ℚ) = n := by
  unfold pyRound
  rw [Int.floor_intCast]
  norm_num

theorem round1_bounds (k : ℤ) (z : ℚ) (hk : 0 ≤ k)
    (h1 : (k : ℚ) / 2 ≤ z) (h2 : z ≤ 2 * k) :
    (k : ℚ) / 2 ≤ round1 z ∧ round1 z ≤ 2 * k := by
  have hlo := le_pyRound (z * 10)
  have hhi := pyRound_le (z * 10)
  have h5 : (5 * k : ℤ) ≤ pyRound (z * 10) := by
    by_contra hcon
    push_neg at hcon
    have : pyRound (z * 10) + 1 ≤ 5 * k := hcon
    have : ((pyRound (z * 10) : ℚ)) + 1 ≤ 5 * k := by exact_mod_cast this
    push_cast at this
    linarith
  have h20 : pyRound (z * 10) ≤ 20 * k := by
    by_contra hcon
    push_neg at hcon
    have : 20 * k + 1 ≤ pyRound (z * 10) := hcon
    have : (20 * k : ℚ) + 1 ≤ (pyRound (z * 10) : ℚ) := by exact_mod_cast this
    push_cast at this
    linarith
  have h5' : (5 * k : ℚ) ≤ (pyRound (z * 10) : ℚ) := by exact_mod_cast h5
  have h20' : ((pyRound (z * 10) : ℚ)) ≤ 20 * k := by exact_mod_cast h20
  constructor
  · unfold round1
    linarith
  · unfold round1
    linarith

/-! ## Trade calculator (`trade_calculator.py`, class `TradeCalculator`) -/

/-- `TradeCalculator.COMMODITIES`. -/
def COMMODITIES : List String := ["Ore", "Organics", "Equipment", "Armor", "Batteries"]

/-- `TradeCalculator.BASE_PRICES` (total map; only the five commodities are
ever looked up, matching the guarded Python dict accesses). -/
def BASE_PRICES : String → ℚ
  | "Ore" => 250
  | "Organics" => 180
  | "Equipment" => 3800
  | "Armor" => 1200
  | "Batteries" => 11
  | _ => 0

/-- `TradeCalculator.PRICE_MODIFIERS`. -/
def PRICE_MODIFIERS : String → ℚ
  | "Ore" => 1000
  | "Organics" => 800
  | "Equipment" => 5000
  | "Armor" => 3000
  | "Batteries" => 20
  | _ => 0

/-- One commodity entry of a port inventory dict: the five fields written by
`generate_port_inventory`. -/
structure InvEntry where
  status : String
  quantity : ℤ
  price : ℚ
  base_price : ℚ
  price_modifier : ℚ
  deriving DecidableEq

/-- A port inventory: commodity name → entry, `none` for an absent key. -/
abbrev Inventory := String → Option InvEntry

/-- The per-commodity body of `generate_port_inventory`: coin flip for the
regime, quantity draw (range depending on the regime), price
`round(base_price * uniform(0.7, 1.3), 1)`. -/
def genEntry (c : String) (r : Rng) : InvEntry × Rng :=
  let isBuying := (r.next).1 % 2 = 0
  let r1 := (r.next).2
  let q : ℤ := if isBuying then ((randint 5000 100000 r1).1 : ℤ)
               else ((randint 1000 50000 r1).1 : ℤ)
  let r2 := if isBuying then (randint 5000 100000 r1).2 else (randint 1000 50000 r1).2
  let m := (uniformQ (7/10) (13/10) r2).1
  let r3 := (uniformQ (7/10) (13/10) r2).2
  (⟨if isBuying then "Buying" else "Selling", q,
    round1 (BASE_PRICES c * m), BASE_PRICES c, PRICE_MODIFIERS c⟩, r3)

/-- `TradeCalculator.generate_port_inventory`: one entry per commodity, in
list order, threading the random stream. -/
def generatePortInventory (r : Rng) : Inventory × Rng :=
  COMMODITIES.foldl
    (fun acc c => (upd acc.1 c (some (genEntry c acc.2).1), (genEntry c acc.2).2))
    ((fun _ => none), r)

/-- `TradeCalculator.calculate_price`.  A present entry supplies all five
fields (as every entry written by the program does); an absent commodity key
falls back to the defaults of the chained `.get` calls. -/
def calculatePrice (commodity : String) (quantityChange : ℤ) (inv : Inventory) : ℚ :=
  if commodity ∉ COMMODITIES then 0
  else
    let basePrice := match inv commodity with
      | some e => e.base_price
      | none => BASE_PRICES commodity
    let priceModifier := match inv commodity with
      | some e => e.price_modifier
      | none => PRICE_MODIFIERS commodity
    let currentPrice := match inv commodity with
      | some e => e.price
      | none => basePrice
    let currentQuantity : ℤ := match inv commodity with
      | some e => e.quantity
      | none => 10000
    if 0 < currentQuantity then
      let demandFactor := (quantityChange : ℚ) / priceModifier
      round1 (min (basePrice * 2) (max (basePrice * (1/2)) (basePrice + demandFactor * basePrice)))
    else currentPrice

/-- `TradeCalculator.execute_purchase`: `round(quantity * price)`. -/
def executePurchase (quantity : ℕ) (price : ℚ) : ℤ :=
  pyRound ((quantity : ℚ) * price)

/-- `TradeCalculator.execute_sale`: `round(quantity * price)`. -/
def executeSale (quantity : ℕ) (price : ℚ) : ℤ :=
  pyRound ((quantity : ℚ) * price)

/-- `TradeCalculator.update_port_inventory_after_buy`.  The Python code
copies the dict and every entry before mutating, so the input is left
untouched; the functional embedding returns the updated copy. -/
def updateAfterBuy (commodity : String) (quantity : ℤ) (cost : ℤ)
    (inv : Inventory) : Inventory :=
  match inv commodity with
  | none => inv
  | some e =>
    upd inv commodity (some { e with
      quantity := e.quantity - quantity,
      status := if e.quantity - quantity < 50000 then "Buying" else "Selling" })

/-- `TradeCalculator.update_port_inventory_after_sell`. -/
def updateAfterSell (commodity : String) (quantity : ℤ) (revenue : ℤ)
    (inv : Inventory) : Inventory :=
  match inv commodity with
  | none => inv
  | some e =>
    upd inv commodity (some { e with
      quantity := e.quantity + quantity,
      status := if e.quantity + quantity < 50000 then "Buying" else "Selling" })

theorem BASE_PRICES_int (c : String) (hc : c ∈ COMMODITIES) :
    ∃ k : ℤ, 0 ≤ k ∧ BASE_PRICES c = (k : ℚ) := by
  fin_cases hc
  · exact ⟨250, by norm_num, rfl⟩
  · exact ⟨180, by norm_num, rfl⟩
  · exact ⟨3800, by norm_num, rfl⟩
  · exact ⟨1200, by norm_num, rfl⟩
  · exact ⟨11, by norm_num, rfl⟩

/-- Rounding the clamped price keeps it inside `[b/2, 2b]` for an integer
base price `b ≥ 0`. -/
theorem clampPrice_bounds (np : ℚ) (k : ℤ) (hk : 0 ≤ k) :
    (k : ℚ) / 2 ≤ round1 (min ((k : ℚ) * 2) (max ((k : ℚ) * (1/2)) np)) ∧
    round1 (min ((k : ℚ) * 2) (max ((k : ℚ) * (1/2)) np)) ≤ 2 * (k : ℚ) := by
  have hb0 : (0 : ℚ) ≤ (k : ℚ) := by exact_mod_cast hk
  have h1 : (k : ℚ) / 2 ≤ min ((k : ℚ) * 2) (max ((k : ℚ) * (1/2)) np) :=
    le_min (by linarith) (le_trans (le_of_eq (by ring)) (le_max_left _ _))
  have h2 : min ((k : ℚ) * 2) (max ((k : ℚ) * (1/2)) np) ≤ 2 * (k : ℚ) :=
    le_trans (min_le_left _ _) (by linarith)
  exact round1_bounds k _ hk h1 h2

theorem genEntry_price_eq (c : String) (r : Rng) :
    ∃ r2 : Rng,
      (genEntry c r).1.price = round1 (BASE_PRICES c * (uniformQ (7/10) (13/10) r2).1) ∧
      (genEntry c r).1.base_price = BASE_PRICES c :=
  ⟨_, rfl, rfl⟩

theorem genEntry_price_bounds (c : String) (r : Rng) (hc : c ∈ COMMODITIES) :
    BASE_PRICES c / 2 ≤ (genEntry c r).1.price ∧
    (genEntry c r).1.price ≤ 2 * BASE_PRICES c := by
  obtain ⟨k, hk, hb⟩ := BASE_PRICES_int c hc
  obtain ⟨r2, hpr, _⟩ := genEntry_price_eq c r
  have hb0 : (0 : ℚ) ≤ (k : ℚ) := by exact_mod_cast hk
  have hm1 : (7/10 : ℚ) ≤ (uniformQ (7/10) (13/10) r2).1 :=
    uniformQ_ge _ _ _ (by norm_num)
  have hm2 : (uniformQ (7/10) (13/10) r2).1 < 13/10 :=
    uniformQ_lt _ _ _ (by norm_num)
  have h1 : (k : ℚ) / 2 ≤ BASE_PRICES c * (uniformQ (7/10) (13/10) r2).1 := by
    rw [hb]; nlinarith
  have h2 : BASE_PRICES c * (uniformQ (7/10) (13/10) r2).1 ≤ 2 * (k : ℚ) := by
    rw [hb]; nlinarith
  have := round1_bounds k _ hk h1 h2
  rw [hb] at this
  rw [hpr, hb]
  exact this

theorem generatePortInventory_mem (c : String) (hc : c ∈ COMMODITIES) (r : Rng) :
    ∃ r', (generatePortInventory r).1 c = some (genEntry c r').1 := by
  fin_cases hc <;> exact ⟨_, rfl⟩

/-- **C4** (amended).  For every commodity `c` and every `quantity_change`,
`calculate_price` returns a price in `[0.5 * base_price, 2.0 * base_price]`
whenever the recomputation branch runs: when the commodity key is absent
(defaults are used), or when the stored entry has positive quantity and
carries the commodity's integer base price (as every entry the program
writes does).  When the stored quantity is non-positive the function
returns the stored price unchanged, so no clamping happens there (see the
counterexample).  Prices produced by `generate_port_inventory` always
satisfy the bound. -/
theorem calculatePrice_bounds (c : String) (qc : ℤ) (inv : Inventory)
    (hc : c ∈ COMMODITIES) :
    ((∀ e : InvEntry, inv c = some e → 0 < e.quantity →
        e.base_price = BASE_PRICES c →
        BASE_PRICES c / 2 ≤ calculatePrice c qc inv ∧
        calculatePrice c qc inv ≤ 2 * BASE_PRICES c) ∧
      (inv c = none →
        BASE_PRICES c / 2 ≤ calculatePrice c qc inv ∧
        calculatePrice c qc inv ≤ 2 * BASE_PRICES c)) ∧
    (∀ r : Rng, ∃ e : InvEntry, (generatePortInventory r).1 c = some e ∧
        e.base_price = BASE_PRICES c ∧
        BASE_PRICES c / 2 ≤ e.price ∧ e.price ≤ 2 * BASE_PRICES c) := by
  obtain ⟨k, hk, hb⟩ := BASE_PRICES_int c hc
  refine ⟨⟨?_, ?_⟩, ?_⟩
  · intro e he hq hbase
    have hcalc : calculatePrice c qc inv =
        round1 (min (e.base_price * 2)
          (max (e.base_price * (1/2))
            (e.base_price + ((qc : ℚ) / e.price_modifier) * e.base_price))) := by
      simp [calculatePrice, hc, he, hq]
    rw [hcalc, hbase, hb]
    exact clampPrice_bounds _ k hk
  · intro he
    have hcalc : calculatePrice c qc inv =
        round1 (min (BASE_PRICES c * 2)
          (max (BASE_PRICES c * (1/2))
            (BASE_PRICES c + ((qc : ℚ) / PRICE_MODIFIERS c) * BASE_PRICES c))) := by
      simp [calculatePrice, hc, he]
    rw [hcalc, hb]
    exact clampPrice_bounds _ k hk
  · intro r
    obtain ⟨r', hr'⟩ := generatePortInventory_mem c hc r
    obtain ⟨_, _, hbase⟩ := genEntry_price_eq c r'
    exact ⟨_, hr', hbase, genEntry_price_bounds c r' hc⟩

/-- Witness for `calculatePrice_bounds` at a concrete inventory. -/
theorem calculatePrice_bounds_witness :
    BASE_PRICES "Ore" / 2 ≤
        calculatePrice "Ore" 40 (fun c =>
          if c = "Ore" then some ⟨"Selling", 500, 260, 250, 1000⟩ else none) ∧
      calculatePrice "Ore" 40 (fun c =>
          if c = "Ore" then some ⟨"Selling", 500, 260, 250, 1000⟩ else none) ≤
        2 * BASE_PRICES "Ore" :=
  (calculatePrice_bounds "Ore" 40 _ (by decide)).1.1
    ⟨"Selling", 500, 260, 250, 1000⟩ (by decide) (by decide) (by decide)

/-- **C4** counterexample: a stored entry with quantity `0` short-circuits
the clamping branch and `calculate_price` returns the stored price `10000`,
far above `2.0 * base_price = 500` for Ore — so the bound does not hold for
every inventory entry and quantity change. -/
theorem calculatePrice_bounds_cex :
    calculatePrice "Ore" 0 (fun c =>
        if c = "Ore" then some ⟨"Selling", 0, 10000, 250, 1000⟩ else none) = 10000 ∧
    ¬ (calculatePrice "Ore" 0 (fun c =>
        if c = "Ore" then some ⟨"Selling", 0, 10000, 250, 1000⟩ else none) ≤
          2 * BASE_PRICES "Ore") := by
  have h : calculatePrice "Ore" 0 (fun c =>
      if c = "Ore" then some ⟨"Selling", 0, 10000, 250, 1000⟩ else none) = 10000 := by
    decide
  refine ⟨h, ?_⟩
  rw [h]
  norm_num [BASE_PRICES]

/-- **C9.** Both inventory updates are pure functions of the input (the
Python code copies the dict and each entry before mutating, which this
functional embedding encodes): every commodity other than the traded one
maps to the identical entry, an absent traded commodity leaves the whole
inventory unchanged, and for the traded commodity only `quantity` and
`status` change — `price`, `base_price` and `price_modifier` are kept. -/
theorem updateInventory_frame (c : String) (q cost rev : ℤ) (inv : Inventory) :
    (∀ o : String, o ≠ c →
      updateAfterBuy c q cost inv o = inv o ∧
      updateAfterSell c q rev inv o = inv o) ∧
    (inv c = none →
      updateAfterBuy c q cost inv = inv ∧ updateAfterSell c q rev inv = inv) ∧
    (∀ e : InvEntry, inv c = some e →
      ∃ e', updateAfterBuy c q cost inv c = some e' ∧
        e'.price = e.price ∧ e'.base_price = e.base_price ∧
        e'.price_modifier = e.price_modifier ∧ e'.quantity = e.quantity - q) ∧
    (∀ e : InvEntry, inv c = some e →
      ∃ e', updateAfterSell c q rev inv c = some e' ∧
        e'.price = e.price ∧ e'.base_price = e.base_price ∧
        e'.price_modifier = e.price_modifier ∧ e'.quantity = e.quantity + q) := by
  refine ⟨?_, ?_, ?_, ?_⟩
  · intro o ho
    unfold updateAfterBuy updateAfterSell
    cases hinv : inv c <;> simp [upd_ne _ _ _ ho]
  · intro h
    unfold updateAfterBuy updateAfterSell
    rw [h]
    exact ⟨rfl, rfl⟩
  · intro e he
    unfold updateAfterBuy
    rw [he]
    exact ⟨_, upd_same _ _ _, rfl, rfl, rfl, rfl⟩
  · intro e he
    unfold updateAfterSell
    rw [he]
    exact ⟨_, upd_same _ _ _, rfl, rfl, rfl, rfl⟩

/-- Sample entry and inventory used by concrete witnesses. -/
def sampleEntry : InvEntry := ⟨"Buying", 49000, 260, 250, 1000⟩

def sampleInv : Inventory := fun c => if c = "Ore" then some sampleEntry else none

/-- Witness for `updateInventory_frame` at a concrete inventory. -/
theorem updateInventory_frame_witness :
    (updateAfterBuy "Ore" 5 1300 sampleInv "Organics" = sampleInv "Organics" ∧
      updateAfterSell "Ore" 5 1300 sampleInv "Organics" = sampleInv "Organics") ∧
    (∃ e', updateAfterBuy "Ore" 5 1300 sampleInv "Ore" = some e' ∧
      e'.price = sampleEntry.price ∧ e'.base_price = sampleEntry.base_price ∧
      e'.price_modifier = sampleEntry.price_modifier ∧
      e'.quantity = sampleEntry.quantity - 5) :=
  ⟨(updateInventory_frame "Ore" 5 1300 1300 sampleInv).1 "Organics" (by decide),
    (updateInventory_frame "Ore" 5 1300 1300 sampleInv).2.2.1 sampleEntry (by decide)⟩

/-- **C10.** After either inventory update the traded commodity's regime is
`"Buying"` exactly when the resulting quantity is below 50000 and
`"Selling"` otherwise, regardless of the previous regime. -/
theorem updateInventory_regime (c : String) (q cost rev : ℤ) (inv : Inventory)
    (e : InvEntry) (he : inv c = some e) :
    (∃ e', updateAfterBuy c q cost inv c = some e' ∧
      e'.quantity = e.quantity - q ∧
      (e'.status = "Buying" ↔ e'.quantity < 50000) ∧
      (e'.status = "Selling" ↔ 50000 ≤ e'.quantity)) ∧
    (∃ e', updateAfterSell c q rev inv c = some e' ∧
      e'.quantity = e.quantity + q ∧
      (e'.status = "Buying" ↔ e'.quantity < 50000) ∧
      (e'.status = "Selling" ↔ 50000 ≤ e'.quantity)) := by
  constructor
  · refine ⟨_, by unfold updateAfterBuy; rw [he]; exact upd_same _ _ _, rfl, ?_, ?_⟩ <;>
      by_cases h : e.quantity - q < 50000 <;> simp [h] <;> omega
  · refine ⟨_, by unfold updateAfterSell; rw [he]; exact upd_same _ _ _, rfl, ?_, ?_⟩ <;>
      by_cases h : e.quantity + q < 50000 <;> simp [h] <;> omega

/-- Witness for `updateInventory_regime`: a sale that lifts a buying port's
stock from 49000 to exactly 50000 flips the regime to `"Selling"`. -/
theorem updateInventory_regime_witness :
    ∃ e', updateAfterSell "Ore" 1000 260000 sampleInv "Ore" = some e' ∧
      e'.quantity = sampleEntry.quantity + 1000 ∧
      (e'.status = "Buying" ↔ e'.quantity < 50000) ∧
      (e'.status = "Selling" ↔ 50000 ≤ e'.quantity) :=
  (updateInventory_regime "Ore" 1000 260000 260000 sampleInv sampleEntry (by decide)).2

/-! ## Player, ship and port rows (`storage.py`) and the trade path
(`tradewars_plugin.py`, `_handle_trade_quantity_input` / `_execute_trade`).

The rows carry the columns the handlers read and write; ship cargo is the
five-key commodity dict as a total map (`get_cargo_used` sums the five
values). -/

structure PlayerRow where
  credits : ℤ
  turns : ℤ
  score : ℤ
  total_warps : ℤ
  total_trades : ℤ

structure ShipRow where
  current_sector : ℕ
  cargo_holds : ℤ
  cargo : String → ℤ

structure PortRow where
  credits : ℤ
  inventory : Inventory

/-- `TradeWarsStorage.get_cargo_used`: sum of the cargo dict's values. -/
def cargoUsed (cargo : String → ℤ) : ℤ := (COMMODITIES.map cargo).sum

/-- Result of `_execute_trade`: the updated rows and the session state the
handler sets (`IN_PORT`). -/
structure TradeOutcome where
  player : PlayerRow
  ship : ShipRow
  port : PortRow
  state : String

/-- `TradeWarsPlugin._execute_trade`.  `none` models the `KeyError` raised
when the traded commodity is missing from the port inventory (caught by
`continue_session`, which then answers with the database-error response).
Note: the function applies the trade for any positive quantity — it does
not re-check cargo space, player credits or port stock. -/
def executeTrade (player : PlayerRow) (ship : ShipRow) (port : PortRow)
    (commodity : String) (isBuying : Bool) (quantity : ℕ) : Option TradeOutcome :=
  match port.inventory commodity with
  | none => none
  | some item =>
    if isBuying then
      let cost := executePurchase quantity item.price
      some ⟨{ player with credits := player.credits - cost,
                          total_trades := player.total_trades + 1 },
            { ship with cargo := upd ship.cargo commodity
                          (ship.cargo commodity + (quantity : ℤ)) },
            { port with inventory := updateAfterBuy commodity quantity cost port.inventory,
                        credits := port.credits + cost },
            "IN_PORT"⟩
    else
      let revenue := executeSale quantity item.price
      some ⟨{ player with credits := player.credits + revenue,
                          total_trades := player.total_trades + 1 },
            { ship with cargo := upd ship.cargo commodity
                          (ship.cargo commodity - (quantity : ℤ)) },
            { port with inventory := updateAfterSell commodity quantity revenue port.inventory,
                        credits := port.credits - revenue },
            "IN_PORT"⟩

/-- The distinct responses of `_handle_trade_quantity_input`. -/
inductive TradeQtyResult
  | cancelToPort
  | invalidQty
  | executed (t : TradeOutcome)
  | dbError

/-- Python `str.isdigit` for the handler's numeric check. -/
def isDigits (s : String) : Bool := s.length != 0 && s.toList.all Char.isDigit

/-- Python `int(...)` on a digit string. -/
def strToNat (s : String) : ℕ := s.toList.foldl (fun n c => 10 * n + (c.toNat - 48)) 0

/-- `TradeWarsPlugin._handle_trade_quantity_input`: "0" cancels back to the
port menu, non-digit or zero input re-prompts, any positive integer is
passed straight to `_execute_trade`. -/
def handleTradeQuantity (player : PlayerRow) (ship : ShipRow) (port : PortRow)
    (commodity : String) (isBuying : Bool) (input : String) : TradeQtyResult :=
  if input = "0" then .cancelToPort
  else if ¬ isDigits input then .invalidQty
  else if strToNat input < 1 then .invalidQty
  else
    match executeTrade player ship port commodity isBuying (strToNat input) with
    | some t => .executed t
    | none => .dbError

/-- Player credits after the handler, when a trade executed. -/
def TradeQtyResult.creditsAfter : TradeQtyResult → Option ℤ
  | .executed t => some t.player.credits
  | _ => none

/-- Used cargo holds after the handler, when a trade executed. -/
def TradeQtyResult.cargoUsedAfter : TradeQtyResult → Option ℤ
  | .executed t => some (cargoUsed t.ship.cargo)
  | _ => none

/-- Ship capacity after the handler, when a trade executed. -/
def TradeQtyResult.holdsAfter : TradeQtyResult → Option ℤ
  | .executed t => some t.ship.cargo_holds
  | _ => none

/-- Reachable pre-trade state: 100 credits, empty cargo, 20 holds, port
selling Ore at 10.0 credits with 1000 units of stock (the PORT_BUY step
validates affordability only for quantity 1, which this state passes). -/
def overbuyPlayer : PlayerRow := ⟨100, 1000, 0, 0, 0⟩

def overbuyShip : ShipRow := ⟨5, 20, fun _ => 0⟩

def overbuyPort : PortRow :=
  ⟨5000000, fun c => if c = "Ore" then some ⟨"Selling", 1000, 10, 250, 1000⟩ else none⟩

/-- **C2** (code bug).  Entering quantity 50 on the buy side at unit price
10.0 executes unconditionally: credits drop by exactly
`round(50 × 10) = 500` to `-400 < 0` and cargo becomes 50 > 20 holds — the
handler never re-validates the typed quantity against credits or capacity,
so the clamping half of the claim fails on the code. -/
theorem trade_overbuy_bug :
    (handleTradeQuantity overbuyPlayer overbuyShip overbuyPort "Ore" true "50").creditsAfter
        = some (overbuyPlayer.credits - executePurchase 50 10) ∧
    executePurchase 50 10 = 500 ∧
    (handleTradeQuantity overbuyPlayer overbuyShip overbuyPort "Ore" true "50").creditsAfter
        = some (-400) ∧
    (handleTradeQuantity overbuyPlayer overbuyShip overbuyPort "Ore" true "50").cargoUsedAfter
        = some 50 ∧
    (handleTradeQuantity overbuyPlayer overbuyShip overbuyPort "Ore" true "50").holdsAfter
        = some 20 ∧
    ((-400 : ℤ) < 0) ∧ ((20 : ℤ) < 50) := by
  have hrun : handleTradeQuantity overbuyPlayer overbuyShip overbuyPort "Ore" true "50" =
      .executed ⟨{ overbuyPlayer with
                     credits := overbuyPlayer.credits - executePurchase 50 10,
                     total_trades := overbuyPlayer.total_trades + 1 },
                 { overbuyShip with
                     cargo := upd overbuyShip.cargo "Ore" (overbuyShip.cargo "Ore" + 50) },
                 { overbuyPort with
                     inventory := updateAfterBuy "Ore" 50 (executePurchase 50 10)
                       overbuyPort.inventory,
                     credits := overbuyPort.credits + executePurchase 50 10 },
                 "IN_PORT"⟩ := rfl
  have hcost : executePurchase 50 10 = 500 := by
    have h1 : ((50 : ℕ) : ℚ) * 10 = ((500 : ℤ) : ℚ) := by norm_num
    unfold executePurchase
    rw [h1, pyRound_intCast]
  have hcargo : cargoUsed (upd overbuyShip.cargo "Ore" (overbuyShip.cargo "Ore" + 50)) = 50 := by
    simp [cargoUsed, COMMODITIES, upd, overbuyShip]
  refine ⟨?_, hcost, ?_, ?_, ?_, by norm_num, by norm_num⟩
  · rw [hrun]; rfl
  · rw [hrun]
    simp only [TradeQtyResult.creditsAfter, hcost, overbuyPlayer]
    norm_num
  · rw [hrun]
    simp only [TradeQtyResult.cargoUsedAfter]
    rw [hcargo]
  · rw [hrun]; rfl

/-! ## Registration (`storage.py` player/ship creation and
`tradewars_plugin.py`, `_handle_registration_confirm`).

`players.player_id` / `ships.ship_id` are sqlite AUTOINCREMENT columns,
modelled as row count + 1; the schema's `UNIQUE` constraints on `node_id`
and `player_name` are modelled in `createPlayer`, whose `none` result is
the `IntegrityError` a violating INSERT raises (nothing is persisted). -/

structure PlayerRec where
  player_id : ℕ
  node_id : String
  player_name : String
  credits : ℤ
  turns : ℤ
  score : ℤ
  total_warps : ℤ
  total_trades : ℤ

structure ShipRec where
  ship_id : ℕ
  player_id : ℕ
  current_sector : ℕ
  cargo_holds : ℤ
  cargo : String → ℤ

structure RegDB where
  players : List PlayerRec
  ships : List ShipRec

/-- `TradeWarsStorage.get_player_by_node_id`. -/
def getPlayerByNode (db : RegDB) (node : String) : Option PlayerRec :=
  db.players.find? (fun p => p.node_id == node)

/-- `TradeWarsStorage.create_player`: INSERT with credits 10000, turns
1000, score 0; fails (IntegrityError) when node_id or player_name is
already taken. -/
def createPlayer (db : RegDB) (node name : String) : Option (ℕ × RegDB) :=
  if db.players.any (fun p => p.node_id == node || p.player_name == name) then none
  else
    some (db.players.length + 1,
      { db with players := db.players ++
          [⟨db.players.length + 1, node, name, 10000, 1000, 0, 0, 0⟩] })

/-- `TradeWarsStorage.create_ship`: 20 cargo holds, all-zero cargo dict. -/
def createShip (db : RegDB) (pid sector : ℕ) : RegDB :=
  { db with ships := db.ships ++ [⟨db.ships.length + 1, pid, sector, 20, fun _ => 0⟩] }

/-- `UniverseManager.get_starting_sector`: `randint(1, 10)`. -/
def getStartingSector (r : Rng) : ℕ × Rng := randint 1 10 r

/-- The distinct responses of `_handle_registration_confirm`. -/
inductive RegResult
  | invalidName (reason : String)
  | alreadyRegistered
  | confirmPrompt (name : String)
  | created (pid : ℕ)
  | retryPrompt
  | askYN
  | dbError

/-- Observable outcome of one registration turn: response tag, database,
stored candidate name and session state afterwards. -/
structure RegOutcome where
  result : RegResult
  db : RegDB
  tempName : Option String
  state : String

/-- `TradeWarsPlugin._handle_registration_confirm`.  With no candidate name
stored, the input is validated (1–8 chars, alphanumeric), the node is
checked against existing players, and a valid name is stored for
confirmation.  With a candidate stored, Y/YES creates the player (the
INSERT can raise on a UNIQUE violation → `dbError`) and then the ship at
`randint(1, 10)`; N/NO discards the candidate; anything else re-asks. -/
def handleRegistrationConfirm (db : RegDB) (node : String)
    (tempName : Option String) (input : String) (r : Rng) (st : String) :
    RegOutcome × Rng :=
  match tempName with
  | none =>
    if input.length < 1 ∨ 8 < input.length then
      (⟨.invalidName "Must be 1-8 chars", db, none, st⟩, r)
    else if ¬ input.toList.all Char.isAlphanum then
      (⟨.invalidName "Alphanumeric only", db, none, st⟩, r)
    else
      match getPlayerByNode db node with
      | some _ => (⟨.alreadyRegistered, db, none, st⟩, r)
      | none => (⟨.confirmPrompt input, db, some input, st⟩, r)
  | some t =>
    if input = "Y" ∨ input = "YES" then
      match createPlayer db node t with
      | none => (⟨.dbError, db, some t, st⟩, r)
      | some (pid, db1) =>
        (⟨.created pid, createShip db1 pid (getStartingSector r).1, none, "SECTOR_VIEW"⟩,
         (getStartingSector r).2)
    else if input = "N" ∨ input = "NO" then (⟨.retryPrompt, db, none, st⟩, r)
    else (⟨.askYN, db, some t, st⟩, r)

/-- The stream constantly 0, used to instantiate witnesses. -/
def rngZero : Rng := ⟨fun _ => 0, 0⟩

/-- A database holding one registered player named "BOB" on node "nodeA". -/
def regDbBob : RegDB := ⟨[⟨1, "nodeA", "BOB", 10000, 1000, 0, 0, 0⟩], []⟩

/-- **C7** (amended). Registration behaviour of one turn:
a name outside 1–8 alphanumeric characters is rejected with a re-prompt and
nothing is created; a valid name from a node that already has a player is
rejected; a valid name from a fresh node is stored and confirmation is
asked — the name is *not* compared against other players' names at this
step; N discards the candidate and re-prompts without creating anything;
Y creates exactly one Player (credits 10000, turns 1000, score 0) and one
Ship (empty cargo, 20 holds, starting sector in [1,10]) when the name and
node are unused — while a candidate name equal to an already registered
player's name makes the INSERT fail and nothing is created. -/
theorem registration_spec (db : RegDB) (node input : String) (r : Rng) (st : String) :
    (((input.length < 1 ∨ 8 < input.length) ∨ input.toList.all Char.isAlphanum = false) →
      ∃ reason, (handleRegistrationConfirm db node none input r st).1 =
        ⟨.invalidName reason, db, none, st⟩) ∧
    ((1 ≤ input.length ∧ input.length ≤ 8 ∧ input.toList.all Char.isAlphanum = true) →
      ((∃ p, getPlayerByNode db node = some p) →
        (handleRegistrationConfirm db node none input r st).1 =
          ⟨.alreadyRegistered, db, none, st⟩) ∧
      (getPlayerByNode db node = none →
        (handleRegistrationConfirm db node none input r st).1 =
          ⟨.confirmPrompt input, db, some input, st⟩)) ∧
    (∀ t : String, (input = "N" ∨ input = "NO") →
      (handleRegistrationConfirm db node (some t) input r st).1 =
        ⟨.retryPrompt, db, none, st⟩) ∧
    (∀ t : String, (input = "Y" ∨ input = "YES") →
      (db.players.any (fun p => p.node_id == node || p.player_name == t) = false →
        ∃ sector, 1 ≤ sector ∧ sector ≤ 10 ∧
          (handleRegistrationConfirm db node (some t) input r st).1 =
            ⟨.created (db.players.length + 1),
             ⟨db.players ++ [⟨db.players.length + 1, node, t, 10000, 1000, 0, 0, 0⟩],
              db.ships ++ [⟨db.ships.length + 1, db.players.length + 1, sector, 20, fun _ => 0⟩]⟩,
             none, "SECTOR_VIEW"⟩) ∧
      (db.players.any (fun p => p.node_id == node || p.player_name == t) = true →
        (handleRegistrationConfirm db node (some t) input r st).1 =
          ⟨.dbError, db, some t, st⟩)) := by
  refine ⟨?_, ?_, ?_, ?_⟩
  · intro h
    by_cases hlen : input.length < 1 ∨ 8 < input.length
    · exact ⟨"Must be 1-8 chars", by simp only [handleRegistrationConfirm]; rw [if_pos hlen]⟩
    · have halnum : input.toList.all Char.isAlphanum = false := by
        rcases h with h | h
        · exact absurd h hlen
        · exact h
      have hneg : ¬ (input.toList.all Char.isAlphanum = true) := by
        rw [halnum]
        simp
      refine ⟨"Alphanumeric only", ?_⟩
      simp only [handleRegistrationConfirm]
      rw [if_neg hlen, if_pos hneg]
  · rintro ⟨h1, h2, h3⟩
    have hlen : ¬ (input.length < 1 ∨ 8 < input.length) := by omega
    have hal : ¬ ¬ (input.toList.all Char.isAlphanum = true) := not_not_intro h3
    constructor
    · rintro ⟨p, hp⟩
      simp only [handleRegistrationConfirm]
      rw [if_neg hlen, if_neg hal, hp]
    · intro hp
      simp only [handleRegistrationConfirm]
      rw [if_neg hlen, if_neg hal, hp]
  · rintro t (rfl | rfl) <;> rfl
  · rintro t hY
    have hpos : input = "Y" ∨ input = "YES" := hY
    constructor
    · intro hany
      have hany' : ¬ (db.players.any (fun p => p.node_id == node || p.player_name == t) = true) := by
        rw [hany]
        simp
      refine ⟨(getStartingSector r).1, randint_ge 1 10 r, randint_le 1 10 r (by norm_num), ?_⟩
      simp only [handleRegistrationConfirm, createPlayer]
      rw [if_pos hpos, if_neg hany']
      rfl
    · intro hany
      simp only [handleRegistrationConfirm, createPlayer]
      rw [if_pos hpos, if_pos hany]

/-- Witness for `registration_spec`: in `regDbBob`, node "nodeB" confirms
the fresh name "ACE" with Y (player and ship created), and an N answer
discards the candidate. -/
theorem registration_spec_witness :
    (∃ sector, 1 ≤ sector ∧ sector ≤ 10 ∧
      (handleRegistrationConfirm regDbBob "nodeB" (some "ACE") "Y" rngZero "REGISTRATION").1 =
        ⟨.created (regDbBob.players.length + 1),
         ⟨regDbBob.players ++
            [⟨regDbBob.players.length + 1, "nodeB", "ACE", 10000, 1000, 0, 0, 0⟩],
          regDbBob.ships ++
            [⟨regDbBob.ships.length + 1, regDbBob.players.length + 1, sector, 20, fun _ => 0⟩]⟩,
         none, "SECTOR_VIEW"⟩) ∧
    (handleRegistrationConfirm regDbBob "nodeB" (some "ACE") "N" rngZero "REGISTRATION").1 =
      ⟨.retryPrompt, regDbBob, none, "REGISTRATION"⟩ :=
  ⟨((registration_spec regDbBob "nodeB" "Y" rngZero "REGISTRATION").2.2.2 "ACE"
      (Or.inl rfl)).1 (by decide),
   (registration_spec regDbBob "nodeB" "N" rngZero "REGISTRATION").2.2.1 "ACE" (Or.inl rfl)⟩

/-- **C7** counterexample: with "BOB" already registered (by node "nodeA"),
node "nodeB" submitting the duplicate name "BOB" is *not* rejected — the
handler stores it as the candidate and asks for confirmation, because the
uniqueness check at the name step looks up the submitting node id, not the
name. -/
theorem registration_duplicateName_cex :
    ((handleRegistrationConfirm regDbBob "nodeB" none "BOB" rngZero "REGISTRATION").1.result
        = RegResult.confirmPrompt "BOB") ∧
    ((handleRegistrationConfirm regDbBob "nodeB" none "BOB" rngZero "REGISTRATION").1.tempName
        = some "BOB") ∧
    (regDbBob.players.any (fun p => p.player_name == "BOB") = true) := by
  refine ⟨rfl, rfl, rfl⟩

/-! ## Session dispatch (`tradewars_plugin.py`, `continue_session`).

`continue_session` routes on the session state string: `"REGISTRATION"` is
handled first, then the `state_handlers` dict maps the eight in-game state
names to three-parameter handler methods `(context, player_id, user_input)`
and falls back to `self._handle_sector_view` — a *two*-parameter method
`(context, player_id)` — via `.get(state, ...)`.  The chosen handler is
always called with three arguments, and the whole body runs inside
`try/except Exception`, whose handler returns
`PluginResponse(text=database_error(), continue_session=True, error=...)`.

The dispatch is embedded over *universally quantified* handler bodies
(`Handlers`): the claim about unknown states is decided by the dispatch and
Python's calling convention alone, never by a handler body.  Calling a
two-parameter method with three positional arguments raises `TypeError`,
modelled by `callThreeArg` returning `none`. -/

/-- A plugin response: its text, the continue flag, and whether the `error`
field is set (it is set only by the `except` branch of
`continue_session`). -/
structure PluginResponse where
  text : String
  continue_session : Bool
  hasError : Bool

/-- The `except Exception` response of `continue_session`:
`formatter.database_error()` with the error field set. -/
def dbErrorResponse : PluginResponse := ⟨"Database error. Try again later.", true, true⟩

/-- A bound handler method together with its positional arity (the
`context` argument is threaded unchanged by the dispatch and omitted). -/
inductive HandlerKind
  | threeArg (run : ℕ → String → PluginResponse)
  | twoArg (run : ℕ → PluginResponse)

/-- The bodies of the session handlers, universally quantified: the
dispatch behaviour proved below holds for every implementation. -/
structure Handlers where
  sectorViewInput : ℕ → String → PluginResponse
  navigationInput : ℕ → String → PluginResponse
  portMenuInput : ℕ → String → PluginResponse
  portBuyInput : ℕ → String → PluginResponse
  portSellInput : ℕ → String → PluginResponse
  tradeQuantityInput : ℕ → String → PluginResponse
  cargoViewInput : ℕ → String → PluginResponse
  statsViewInput : ℕ → String → PluginResponse
  sectorView : ℕ → PluginResponse
  registrationConfirm : String → PluginResponse
  startSession : PluginResponse

/-- The `state_handlers` dict of `continue_session`. -/
def stateTable (H : Handlers) (s : String) : Option HandlerKind :=
  if s = "SECTOR_VIEW" then some (.threeArg H.sectorViewInput)
  else if s = "NAVIGATION" then some (.threeArg H.navigationInput)
  else if s = "IN_PORT" then some (.threeArg H.portMenuInput)
  else if s = "PORT_BUY" then some (.threeArg H.portBuyInput)
  else if s = "PORT_SELL" then some (.threeArg H.portSellInput)
  else if s = "TRADE_QUANTITY" then some (.threeArg H.tradeQuantityInput)
  else if s = "VIEW_CARGO" then some (.threeArg H.cargoViewInput)
  else if s = "VIEW_STATS" then some (.threeArg H.statsViewInput)
  else none

/-- Python call `handler(context, player_id, user_input)`: a two-parameter
method called with three positional arguments raises `TypeError`
(`none`). -/
def callThreeArg : HandlerKind → ℕ → String → Option PluginResponse
  | .threeArg f, pid, input => some (f pid input)
  | .twoArg _, _, _ => none

/-- `TradeWarsPlugin.continue_session`: the REGISTRATION short-circuit, the
restart on a missing player id, the dict dispatch with the
`_handle_sector_view` fallback, and the `except` branch answering with the
database-error response when the call raises. -/
def continueSession (H : Handlers) (state : String) (playerId : Option ℕ)
    (input : String) : PluginResponse :=
  if state = "REGISTRATION" then H.registrationConfirm input
  else
    match playerId with
    | none => H.startSession
    | some pid =>
      match callThreeArg ((stateTable H state).getD (.twoArg H.sectorView)) pid input with
      | some resp => resp
      | none => dbErrorResponse

/-- The nine defined session state names. -/
def definedStates : List String :=
  ["REGISTRATION", "SECTOR_VIEW", "NAVIGATION", "IN_PORT", "PORT_BUY", "PORT_SELL",
   "TRADE_QUANTITY", "VIEW_CARGO", "VIEW_STATS"]

/-- **C3** (code bug).  For every handler implementation, every player id
and every input, a session state outside the nine defined names is *not*
handled as `SECTOR_VIEW`: the fallback `_handle_sector_view` takes two
positional parameters but is invoked with three, the resulting `TypeError`
is caught, and the turn answers with the database-error response (error
field set) — never with the sector view. -/
theorem unknownState_dbError (H : Handlers) (s : String) (pid : ℕ) (input : String)
    (hs : s ∉ definedStates) :
    continueSession H s (some pid) input = dbErrorResponse ∧
    dbErrorResponse.hasError = true := by
  simp only [definedStates, List.mem_cons, List.mem_singleton, not_or] at hs
  obtain ⟨h0, h1, h2, h3, h4, h5, h6, h7, h8, -⟩ := hs
  refine ⟨?_, rfl⟩
  simp only [continueSession, stateTable]
  rw [if_neg h0, if_neg h1, if_neg h2, if_neg h3, if_neg h4, if_neg h5, if_neg h6,
    if_neg h7, if_neg h8]
  rfl

/-- Handler bodies used only to instantiate the dispatch witness. -/
def trivialHandlers : Handlers :=
  ⟨fun _ _ => ⟨"", true, false⟩, fun _ _ => ⟨"", true, false⟩,
   fun _ _ => ⟨"", true, false⟩, fun _ _ => ⟨"", true, false⟩,
   fun _ _ => ⟨"", true, false⟩, fun _ _ => ⟨"", true, false⟩,
   fun _ _ => ⟨"", true, false⟩, fun _ _ => ⟨"", true, false⟩,
   fun _ => ⟨"", true, false⟩, fun _ => ⟨"", true, false⟩, ⟨"", true, false⟩⟩

/-- Witness for `unknownState_dbError` at the corrupted state "WARPING". -/
theorem unknownState_dbError_witness :
    continueSession trivialHandlers "WARPING" (some 1) "R" = dbErrorResponse ∧
    dbErrorResponse.hasError = true :=
  unknownState_dbError trivialHandlers "WARPING" 1 "R" (by decide)

/-! ## Universe generation and validation (`universe.py`, `UniverseManager`).

`self.sectors` is a dict whose key set is always `[1..100]` after
`generate_universe` (all keys are created up front and the loops only touch
sectors in `[1, 100]`); it is embedded as a `keys` finset plus a total
adjacency map that is `[]` outside the keys.  `dict.get(sector, [])` is
`Univ.getAdj`. -/

structure Univ where
  keys : Finset ℕ
  adj : ℕ → List ℕ

/-- `self.sectors.get(s, [])`. -/
def Univ.getAdj (u : Univ) (s : ℕ) : List ℕ := if s ∈ u.keys then u.adj s else []

/-- One step of the first pass of `generate_universe`: connect `i` to
`i+1` in both directions, skipping already-present entries. -/
def chainStep (g : ℕ → List ℕ) (i : ℕ) : ℕ → List ℕ :=
  let g1 := if i + 1 ∈ g i then g else upd g i (g i ++ [i + 1])
  if i ∈ g1 (i + 1) then g1 else upd g1 (i + 1) (g1 (i + 1) ++ [i])

/-- The first pass over `range(1, 100)` starting from the empty adjacency
dict (`{i: [] for i in 1..100}`). -/
def chainPass : ℕ → List ℕ := (List.range' 1 99).foldl chainStep (fun _ => [])

/-- The two symmetric appends of the second pass, each guarded by a
membership test. -/
def addEdges (g : ℕ → List ℕ) (sid t : ℕ) : ℕ → List ℕ :=
  let g1 := if t ∈ g sid then g else upd g sid (g sid ++ [t])
  if sid ∈ g1 t then g1 else upd g1 t (g1 t ++ [sid])

/-- `abs(target - sector_id)` on naturals. -/
def natAbsDiff (a b : ℕ) : ℕ := max a b - min a b

/-- The `while ... and attempts < 10` loop of the second pass, structured
on the remaining attempts (every iteration increments `attempts`): draw a
target, skip self-edges and duplicates, skip far targets 70% of the time,
otherwise add the symmetric edge. -/
def attemptLoop (sid targetLen : ℕ) : ℕ → (ℕ → List ℕ) → Rng → (ℕ → List ℕ) × Rng
  | 0, g, r => (g, r)
  | k + 1, g, r =>
    if (g sid).length < targetLen then
      if (randint 1 100 r).1 ≠ sid ∧ (randint 1 100 r).1 ∉ g sid then
        if 20 < natAbsDiff (randint 1 100 r).1 sid then
          if 3/10 < (randFrac (randint 1 100 r).2).1 then
            attemptLoop sid targetLen k g (randFrac (randint 1 100 r).2).2
          else
            attemptLoop sid targetLen k (addEdges g sid (randint 1 100 r).1)
              (randFrac (randint 1 100 r).2).2
        else
          attemptLoop sid targetLen k (addEdges g sid (randint 1 100 r).1)
            (randint 1 100 r).2
      else attemptLoop sid targetLen k g (randint 1 100 r).2
    else (g, r)

/-- One sector of the second pass: `needed = randint(0, 2)` additional
edges on top of the current count, at most 10 attempts. -/
def sectorStep (gr : (ℕ → List ℕ) × Rng) (sid : ℕ) : (ℕ → List ℕ) × Rng :=
  attemptLoop sid ((gr.1 sid).length + (randint 0 2 gr.2).1) 10 gr.1 (randint 0 2 gr.2).2

/-- Ascending insertion, for the final `list.sort()` pass. -/
def insertSorted (x : ℕ) : List ℕ → List ℕ
  | [] => [x]
  | y :: ys => if x ≤ y then x :: y :: ys else y :: insertSorted x ys

/-- `list.sort()` (ascending; the adjacency lists are duplicate-free). -/
def sortList : List ℕ → List ℕ
  | [] => []
  | x :: xs => insertSorted x (sortList xs)

/-- The second pass of `generate_universe`, over `range(1, 101)`. -/
def randomPass (r : Rng) : (ℕ → List ℕ) × Rng :=
  (List.range' 1 100).foldl sectorStep (chainPass, r)

/-- The final adjacency map: the random pass result, each list sorted. -/
def generatedAdj (r : Rng) : ℕ → List ℕ := fun s => sortList ((randomPass r).1 s)

/-- `UniverseManager.generate_universe`: chain pass, random pass, then the
per-key `sort()`. -/
def generateUniverse (r : Rng) : Univ × Rng :=
  (⟨Finset.Icc 1 100, generatedAdj r⟩, (randomPass r).2)

/-- The neighbor scan of the BFS in `validate_universe`: unvisited
neighbors are marked visited and appended to the queue. -/
def enqueueNew (vq : Finset ℕ × List ℕ) (n : ℕ) : Finset ℕ × List ℕ :=
  if n ∈ vq.1 then vq else (insert n vq.1, vq.2 ++ [n])

/-- The BFS loop of `validate_universe` (deque popleft / append), with
explicit fuel for the while loop; 300 exceeds the loop's iteration bound
(at most one dequeue per element ever enqueued, which is at most 100). -/
def bfsLoop (u : Univ) : ℕ → List ℕ → Finset ℕ → Finset ℕ
  | 0, _, visited => visited
  | _ + 1, [], visited => visited
  | fuel + 1, s :: queue, visited =>
    bfsLoop u fuel ((u.getAdj s).foldl enqueueNew (visited, queue)).2
      ((u.getAdj s).foldl enqueueNew (visited, queue)).1

/-- `UniverseManager.validate_universe`: guard on a missing or too-small
sector dict, then BFS from sector 1 and compare the visited count with
`TOTAL_SECTORS`. -/
def validateUniverse (u : Univ) : Bool :=
  if u.keys.card < 2 then false
  else (bfsLoop u 300 [1] {1}).card == 100

/-- One draw of `select_port_sectors`: sector
`base + offset + 1 = i*step + randint(0, step-1) + 1` with `step = 100 // 30`,
inserted when it does not exceed 100. -/
def portDraw (acc : Finset ℕ × Rng) (i : ℕ) : Finset ℕ × Rng :=
  ((if i * (100 / 30) + (randint 0 (100 / 30 - 1) acc.2).1 + 1 ≤ 100 then
      insert (i * (100 / 30) + (randint 0 (100 / 30 - 1) acc.2).1 + 1) acc.1
    else acc.1),
   (randint 0 (100 / 30 - 1) acc.2).2)

/-- `UniverseManager.select_port_sectors`: one draw per band index in
`range(PORTS_COUNT)`, starting from the empty set. -/
def selectPortSectors (r : Rng) : Finset ℕ × Rng :=
  (List.range 30).foldl portDraw (∅, r)

/-- The width-3 band the `i`-th draw of `select_port_sectors` is taken
from: `[i*step + 1, i*step + step]` with `step = 100 // 30 = 3`. -/
def band (i : ℕ) : Finset ℕ := Finset.Icc (3 * i + 1) (3 * i + 3)

/-! ### Generation invariants: edges only accumulate, stay in `[1, 100]`,
and the chain backbone `i — i+1` survives to the final adjacency. -/

/-- `g'` keeps every edge of `g`. -/
def AdjLe (g g' : ℕ → List ℕ) : Prop := ∀ k x, x ∈ g k → x ∈ g' k

theorem adjLe_refl (g : ℕ → List ℕ) : AdjLe g g := fun _ _ h => h

theorem adjLe_trans {a b c : ℕ → List ℕ} (h1 : AdjLe a b) (h2 : AdjLe b c) :
    AdjLe a c := fun k x h => h2 k x (h1 k x h)

theorem adjLe_upd_append (g : ℕ → List ℕ) (k : ℕ) (l : List ℕ) :
    AdjLe g (upd g k (g k ++ l)) := by
  intro j x hx
  by_cases hj : j = k
  · subst hj
    rw [upd_same]
    exact List.mem_append_left _ hx
  · rwa [upd_ne _ _ _ hj]

theorem upd_mem_cases {g : ℕ → List ℕ} {k : ℕ} {l : List ℕ} {j x : ℕ}
    (h : x ∈ upd g k l j) : x ∈ g j ∨ (j = k ∧ x ∈ l) := by
  by_cases hj : j = k
  · subst hj
    rw [upd_same] at h
    exact Or.inr ⟨rfl, h⟩
  · rw [upd_ne _ _ _ hj] at h
    exact Or.inl h

theorem chainStep_le (g : ℕ → List ℕ) (i : ℕ) : AdjLe g (chainStep g i) := by
  have step1 : AdjLe g (if i + 1 ∈ g i then g else upd g i (g i ++ [i + 1])) := by
    split
    · exact adjLe_refl g
    · exact adjLe_upd_append g i [i + 1]
  refine adjLe_trans step1 ?_
  set g1 := if i + 1 ∈ g i then g else upd g i (g i ++ [i + 1]) with hg1
  have hdef : chainStep g i =
      if i ∈ g1 (i + 1) then g1 else upd g1 (i + 1) (g1 (i + 1) ++ [i]) := rfl
  rw [hdef]
  split
  · exact adjLe_refl g1
  · exact adjLe_upd_append g1 (i + 1) [i]

theorem addEdges_le (g : ℕ → List ℕ) (sid t : ℕ) : AdjLe g (addEdges g sid t) := by
  have step1 : AdjLe g (if t ∈ g sid then g else upd g sid (g sid ++ [t])) := by
    split
    · exact adjLe_refl g
    · exact adjLe_upd_append g sid [t]
  refine adjLe_trans step1 ?_
  set g1 := if t ∈ g sid then g else upd g sid (g sid ++ [t]) with hg1
  have hdef : addEdges g sid t =
      if sid ∈ g1 t then g1 else upd g1 t (g1 t ++ [sid]) := rfl
  rw [hdef]
  split
  · exact adjLe_refl g1
  · exact adjLe_upd_append g1 t [sid]

theorem attemptLoop_le (sid targetLen : ℕ) :
    ∀ (k : ℕ) (g : ℕ → List ℕ) (r : Rng), AdjLe g (attemptLoop sid targetLen k g r).1 := by
  intro k
  induction k with
  | zero => intro g r; exact adjLe_refl g
  | succ k ih =>
    intro g r
    rw [attemptLoop]
    split_ifs
    · exact ih g _
    · exact adjLe_trans (addEdges_le g sid _) (ih _ _)
    · exact adjLe_trans (addEdges_le g sid _) (ih _ _)
    · exact ih g _
    · exact adjLe_refl g

theorem sectorStep_le (gr : (ℕ → List ℕ) × Rng) (sid : ℕ) :
    AdjLe gr.1 (sectorStep gr sid).1 := attemptLoop_le sid _ 10 gr.1 _

theorem foldl_sectorStep_le (l : List ℕ) (gr : (ℕ → List ℕ) × Rng) :
    AdjLe gr.1 (l.foldl sectorStep gr).1 := by
  induction l generalizing gr with
  | nil => exact adjLe_refl _
  | cons a l ih =>
    exact adjLe_trans (sectorStep_le gr a) (ih (sectorStep gr a))

theorem mem_insertSorted {x y : ℕ} {l : List ℕ} :
    y ∈ insertSorted x l ↔ y = x ∨ y ∈ l := by
  induction l with
  | nil => simp [insertSorted]
  | cons a l ih =>
    unfold insertSorted
    split
    · simp
    · simp [ih]
      tauto

theorem mem_sortList {y : ℕ} {l : List ℕ} : y ∈ sortList l ↔ y ∈ l := by
  induction l with
  | nil => simp [sortList]
  | cons a l ih =>
    unfold sortList
    rw [mem_insertSorted, ih]
    simp

/-- The chain backbone at `i`: the symmetric edge `i — i+1`. -/
def ChainEdge (g : ℕ → List ℕ) (i : ℕ) : Prop := i + 1 ∈ g i ∧ i ∈ g (i + 1)

theorem chainEdge_mono {g g' : ℕ → List ℕ} (h : AdjLe g g') {i : ℕ}
    (hc : ChainEdge g i) : ChainEdge g' i :=
  ⟨h i (i + 1) hc.1, h (i + 1) i hc.2⟩

theorem chainStep_estab (g : ℕ → List ℕ) (i : ℕ) : ChainEdge (chainStep g i) i := by
  set g1 := if i + 1 ∈ g i then g else upd g i (g i ++ [i + 1]) with hg1
  have h1 : i + 1 ∈ g1 i := by
    rw [hg1]
    split
    · assumption
    · rw [upd_same]
      exact List.mem_append_right _ (List.mem_singleton.mpr rfl)
  have hdef : chainStep g i =
      if i ∈ g1 (i + 1) then g1 else upd g1 (i + 1) (g1 (i + 1) ++ [i]) := rfl
  rw [ChainEdge, hdef]
  split
  · exact ⟨h1, by assumption⟩
  · constructor
    · rw [upd_ne _ _ _ (by omega : i ≠ i + 1)]
      exact h1
    · rw [upd_same]
      exact List.mem_append_right _ (List.mem_singleton.mpr rfl)

theorem foldl_chainStep_edge (l : List ℕ) (g : ℕ → List ℕ) (i : ℕ)
    (h : i ∈ l ∨ ChainEdge g i) : ChainEdge (l.foldl chainStep g) i := by
  induction l generalizing g with
  | nil =>
    rcases h with h | h
    · cases h
    · exact h
  | cons a l ih =>
    rcases h with h | h
    · rcases List.mem_cons.mp h with rfl | h
      · exact ih (chainStep g i) (Or.inr (chainStep_estab g i))
      · exact ih (chainStep g a) (Or.inl h)
    · exact ih (chainStep g a) (Or.inr (chainEdge_mono (chainStep_le g a) h))

theorem chainPass_chainEdge {i : ℕ} (h1 : 1 ≤ i) (h2 : i ≤ 99) :
    ChainEdge chainPass i := by
  refine foldl_chainStep_edge _ _ _ (Or.inl ?_)
  rw [List.mem_range'_1]
  omega

/-- Every edge value stays in `[1, 100]`. -/
def AdjBounded (g : ℕ → List ℕ) : Prop := ∀ k x, x ∈ g k → 1 ≤ x ∧ x ≤ 100

theorem upd_append_bounded {g : ℕ → List ℕ} (hg : AdjBounded g) {k y : ℕ}
    (hy : 1 ≤ y ∧ y ≤ 100) : AdjBounded (upd g k (g k ++ [y])) := by
  intro j x hx
  rcases upd_mem_cases hx with h | ⟨rfl, h⟩
  · exact hg j x h
  · rcases List.mem_append.mp h with h | h
    · exact hg _ x h
    · rw [List.mem_singleton.mp h]
      exact hy

theorem chainStep_bounded {g : ℕ → List ℕ} (hg : AdjBounded g) {i : ℕ}
    (h1 : 1 ≤ i) (h2 : i + 1 ≤ 100) : AdjBounded (chainStep g i) := by
  set g1 := if i + 1 ∈ g i then g else upd g i (g i ++ [i + 1]) with hg1
  have hb1 : AdjBounded g1 := by
    rw [hg1]
    split
    · exact hg
    · exact upd_append_bounded hg (by omega)
  have hdef : chainStep g i =
      if i ∈ g1 (i + 1) then g1 else upd g1 (i + 1) (g1 (i + 1) ++ [i]) := rfl
  rw [hdef]
  split
  · exact hb1
  · exact upd_append_bounded hb1 (by omega)

theorem addEdges_bounded {g : ℕ → List ℕ} (hg : AdjBounded g) {sid t : ℕ}
    (hs : 1 ≤ sid ∧ sid ≤ 100) (ht : 1 ≤ t ∧ t ≤ 100) :
    AdjBounded (addEdges g sid t) := by
  set g1 := if t ∈ g sid then g else upd g sid (g sid ++ [t]) with hg1
  have hb1 : AdjBounded g1 := by
    rw [hg1]
    split
    · exact hg
    · exact upd_append_bounded hg ht
  have hdef : addEdges g sid t =
      if sid ∈ g1 t then g1 else upd g1 t (g1 t ++ [sid]) := rfl
  rw [hdef]
  split
  · exact hb1
  · exact upd_append_bounded hb1 hs

theorem attemptLoop_bounded (sid targetLen : ℕ) (hsid : 1 ≤ sid ∧ sid ≤ 100) :
    ∀ (k : ℕ) (g : ℕ → List ℕ) (r : Rng), AdjBounded g →
      AdjBounded (attemptLoop sid targetLen k g r).1 := by
  intro k
  induction k with
  | zero => intro g r hg; exact hg
  | succ k ih =>
    intro g r hg
    have ht : 1 ≤ (randint 1 100 r).1 ∧ (randint 1 100 r).1 ≤ 100 :=
      ⟨randint_ge 1 100 r, randint_le 1 100 r (by norm_num)⟩
    rw [attemptLoop]
    split_ifs
    · exact ih g _ hg
    · exact ih _ _ (addEdges_bounded hg hsid ht)
    · exact ih _ _ (addEdges_bounded hg hsid ht)
    · exact ih g _ hg
    · exact hg

theorem foldl_sectorStep_bounded (l : List ℕ) (hl : ∀ a ∈ l, 1 ≤ a ∧ a ≤ 100)
    (gr : (ℕ → List ℕ) × Rng) (hg : AdjBounded gr.1) :
    AdjBounded (l.foldl sectorStep gr).1 := by
  induction l generalizing gr with
  | nil => exact hg
  | cons a l ih =>
    refine ih (fun b hb => hl b (List.mem_cons_of_mem a hb)) (sectorStep gr a) ?_
    exact attemptLoop_bounded a _ (hl a (List.mem_cons_self a l)) 10 gr.1 _ hg

theorem chainPass_bounded : AdjBounded chainPass := by
  unfold chainPass
  have : ∀ (l : List ℕ), (∀ a ∈ l, 1 ≤ a ∧ a + 1 ≤ 100) →
      ∀ g : ℕ → List ℕ, AdjBounded g → AdjBounded (l.foldl chainStep g) := by
    intro l
    induction l with
    | nil => intro _ g hg; exact hg
    | cons a l ih =>
      intro hl g hg
      refine ih (fun b hb => hl b (List.mem_cons_of_mem a hb)) _ ?_
      exact chainStep_bounded hg (hl a (List.mem_cons_self a l)).1 (hl a (List.mem_cons_self a l)).2
  have hnil : AdjBounded (fun _ => ([] : List ℕ)) := by
    intro k x h
    simp at h
  refine this _ ?_ _ hnil
  intro a ha
  rw [List.mem_range'_1] at ha
  omega

theorem generateUniverse_fst (r : Rng) :
    (generateUniverse r).1 = ⟨Finset.Icc 1 100, generatedAdj r⟩ := rfl

theorem generateUniverse_adj (r : Rng) : (generateUniverse r).1.adj = generatedAdj r := by
  rw [generateUniverse_fst]

theorem mem_generatedAdj {r : Rng} {k x : ℕ} :
    x ∈ generatedAdj r k ↔ x ∈ (randomPass r).1 k := mem_sortList

set_option maxRecDepth 100000 in
theorem generate_bounded (r : Rng) : AdjBounded ((generateUniverse r).1.adj) := by
  rw [generateUniverse_adj]
  intro k x hx
  have hx' : x ∈ (randomPass r).1 k := mem_generatedAdj.mp hx
  rw [randomPass] at hx'
  refine foldl_sectorStep_bounded _ ?_ (chainPass, r) chainPass_bounded k x hx'
  intro a ha
  rw [List.mem_range'_1] at ha
  omega

set_option maxRecDepth 100000 in
theorem generate_chainEdge (r : Rng) {i : ℕ} (h1 : 1 ≤ i) (h2 : i ≤ 99) :
    ChainEdge ((generateUniverse r).1.adj) i := by
  have hpass : ChainEdge (randomPass r).1 i := by
    have hc := chainPass_chainEdge h1 h2
    rw [randomPass]
    exact chainEdge_mono (foldl_sectorStep_le _ (chainPass, r)) hc
  rw [generateUniverse_adj]
  exact ⟨mem_generatedAdj.mpr hpass.1, mem_generatedAdj.mpr hpass.2⟩

attribute [irreducible] randomPass generatedAdj chainPass

/-! ### BFS correctness: with enough fuel the visited set is closed under
adjacency, and with the chain backbone it covers all of `[1, 100]`. -/

theorem getAdj_mk (keys : Finset ℕ) (adj : ℕ → List ℕ) {s : ℕ} (h : s ∈ keys) :
    (Univ.mk keys adj).getAdj s = adj s := by
  rw [Univ.getAdj]
  exact if_pos h

theorem enqueue_foldl_spec :
    ∀ (ns : List ℕ) (visited : Finset ℕ) (queue : List ℕ),
      visited ⊆ (ns.foldl enqueueNew (visited, queue)).1 ∧
      (∀ n ∈ ns, n ∈ (ns.foldl enqueueNew (visited, queue)).1) ∧
      (∀ x ∈ (ns.foldl enqueueNew (visited, queue)).1, x ∈ visited ∨ x ∈ ns) ∧
      (∀ q ∈ (ns.foldl enqueueNew (visited, queue)).2,
        q ∈ queue ∨ q ∈ (ns.foldl enqueueNew (visited, queue)).1) ∧
      (∀ q ∈ queue, q ∈ (ns.foldl enqueueNew (visited, queue)).2) ∧
      (∀ x ∈ (ns.foldl enqueueNew (visited, queue)).1,
        x ∈ visited ∨ x ∈ (ns.foldl enqueueNew (visited, queue)).2) ∧
      (ns.foldl enqueueNew (visited, queue)).2.length + visited.card
        = queue.length + (ns.foldl enqueueNew (visited, queue)).1.card := by
  intro ns
  induction ns with
  | nil =>
    intro visited queue
    refine ⟨Finset.Subset.refl _, ?_, ?_, ?_, ?_, ?_, rfl⟩
    · intro n hn; cases hn
    · intro x hx; exact Or.inl hx
    · intro q hq; exact Or.inl hq
    · intro q hq; exact hq
    · intro x hx; exact Or.inl hx
  | cons a ns ih =>
    intro visited queue
    have hstep : (a :: ns).foldl enqueueNew (visited, queue)
        = ns.foldl enqueueNew (enqueueNew (visited, queue) a) := rfl
    by_cases ha : a ∈ visited
    · have he : enqueueNew (visited, queue) a = (visited, queue) := by
        simp [enqueueNew, ha]
      rw [hstep, he]
      obtain ⟨i1, i2, i3, i4, i5, i6, i7⟩ := ih visited queue
      refine ⟨i1, ?_, ?_, i4, i5, i6, i7⟩
      · intro n hn
        rcases List.mem_cons.mp hn with rfl | hn
        · exact i1 ha
        · exact i2 n hn
      · intro x hx
        rcases i3 x hx with h | h
        · exact Or.inl h
        · exact Or.inr (List.mem_cons_of_mem a h)
    · have he : enqueueNew (visited, queue) a = (insert a visited, queue ++ [a]) := by
        simp [enqueueNew, ha]
      rw [hstep, he]
      obtain ⟨i1, i2, i3, i4, i5, i6, i7⟩ := ih (insert a visited) (queue ++ [a])
      have hsub : visited ⊆ insert a visited := Finset.subset_insert a visited
      refine ⟨hsub.trans i1, ?_, ?_, ?_, ?_, ?_, ?_⟩
      · intro n hn
        rcases List.mem_cons.mp hn with rfl | hn
        · exact i1 (Finset.mem_insert_self n visited)
        · exact i2 n hn
      · intro x hx
        rcases i3 x hx with h | h
        · rcases Finset.mem_insert.mp h with rfl | h
          · exact Or.inr (List.mem_cons_self x ns)
          · exact Or.inl h
        · exact Or.inr (List.mem_cons_of_mem a h)
      · intro q hq
        rcases i4 q hq with h | h
        · rcases List.mem_append.mp h with h | h
          · exact Or.inl h
          · rw [List.mem_singleton.mp h]
            exact Or.inr (i1 (Finset.mem_insert_self a visited))
        · exact Or.inr h
      · intro q hq
        exact i5 q (List.mem_append_left _ hq)
      · intro x hx
        rcases i6 x hx with h | h
        · rcases Finset.mem_insert.mp h with rfl | h
          · exact Or.inr (i5 x (List.mem_append_right _ (List.mem_singleton.mpr rfl)))
          · exact Or.inl h
        · exact Or.inr h
      · have hcard : (insert a visited).card = visited.card + 1 :=
          Finset.card_insert_of_not_mem ha
        rw [hcard] at i7
        simp only [List.length_append, List.length_cons, List.length_nil] at i7 ⊢
        omega

theorem bfsLoop_spec (u : Univ) (T : Finset ℕ)
    (hadj : ∀ v ∈ T, ∀ n ∈ u.getAdj v, n ∈ T) :
    ∀ (fuel : ℕ) (queue : List ℕ) (visited : Finset ℕ),
      (∀ q ∈ queue, q ∈ visited) →
      visited ⊆ T →
      (∀ v ∈ visited, v ∈ queue ∨ ∀ n ∈ u.getAdj v, n ∈ visited) →
      queue.length + (T.card - visited.card) ≤ fuel →
      visited ⊆ bfsLoop u fuel queue visited ∧
      bfsLoop u fuel queue visited ⊆ T ∧
      (∀ v ∈ bfsLoop u fuel queue visited, ∀ n ∈ u.getAdj v,
        n ∈ bfsLoop u fuel queue visited) := by
  intro fuel
  induction fuel with
  | zero =>
    intro queue visited hq hvT hinv hlen
    have hq0 : queue = [] := List.length_eq_zero.mp (by omega)
    subst hq0
    refine ⟨Finset.Subset.refl _, hvT, ?_⟩
    intro v hv n hn
    rcases hinv v hv with h | h
    · cases h
    · exact h n hn
  | succ fuel ihf =>
    intro queue visited hq hvT hinv hlen
    match queue with
    | [] =>
      refine ⟨Finset.Subset.refl _, hvT, ?_⟩
      intro v hv n hn
      rcases hinv v hv with h | h
      · cases h
      · exact h n hn
    | s :: qs =>
      obtain ⟨e1, e2, e3, e4, e5, e6, e7⟩ := enqueue_foldl_spec (u.getAdj s) visited qs
      have hsT : s ∈ T := hvT (hq s (List.mem_cons_self s qs))
      have hrun : bfsLoop u (fuel + 1) (s :: qs) visited
          = bfsLoop u fuel ((u.getAdj s).foldl enqueueNew (visited, qs)).2
              ((u.getAdj s).foldl enqueueNew (visited, qs)).1 := rfl
      have hq' : ∀ q ∈ ((u.getAdj s).foldl enqueueNew (visited, qs)).2,
          q ∈ ((u.getAdj s).foldl enqueueNew (visited, qs)).1 := by
        intro q hqq
        rcases e4 q hqq with h | h
        · exact e1 (hq q (List.mem_cons_of_mem s h))
        · exact h
      have hvT' : ((u.getAdj s).foldl enqueueNew (visited, qs)).1 ⊆ T := by
        intro x hx
        rcases e3 x hx with h | h
        · exact hvT h
        · exact hadj s hsT x h
      have hinv' : ∀ v ∈ ((u.getAdj s).foldl enqueueNew (visited, qs)).1,
          v ∈ ((u.getAdj s).foldl enqueueNew (visited, qs)).2 ∨
          ∀ n ∈ u.getAdj v, n ∈ ((u.getAdj s).foldl enqueueNew (visited, qs)).1 := by
        intro v hv
        rcases e6 v hv with h | h
        · rcases hinv v h with hh | hh
          · rcases List.mem_cons.mp hh with rfl | hh
            · exact Or.inr (fun n hn => e2 n hn)
            · exact Or.inl (e5 v hh)
          · exact Or.inr (fun n hn => e1 (hh n hn))
        · exact Or.inl h
      have hcards : visited.card ≤ ((u.getAdj s).foldl enqueueNew (visited, qs)).1.card :=
        Finset.card_le_card e1
      have hcardT : ((u.getAdj s).foldl enqueueNew (visited, qs)).1.card ≤ T.card :=
        Finset.card_le_card hvT'
      have hvTcard : visited.card ≤ T.card := Finset.card_le_card hvT
      have hlen' : ((u.getAdj s).foldl enqueueNew (visited, qs)).2.length
          + (T.card - ((u.getAdj s).foldl enqueueNew (visited, qs)).1.card) ≤ fuel := by
        simp only [List.length_cons] at hlen
        omega
      obtain ⟨r1, r2, r3⟩ := ihf _ _ hq' hvT' hinv' hlen'
      exact ⟨e1.trans r1, r2, r3⟩

set_option maxRecDepth 100000 in
/-- **C1.**  For every random outcome, the universe built by
`generate_universe` passes `validate_universe`: the BFS from sector 1
visits exactly the 100 sectors, because the first pass's chain edges
survive every later mutation. -/
theorem validate_generated_universe (r : Rng) :
    validateUniverse (generateUniverse r).1 = true := by
  rw [generateUniverse_fst]
  have hbdd : AdjBounded (generatedAdj r) := by
    have hgb := generate_bounded r
    rw [generateUniverse_adj] at hgb
    exact hgb
  have hadj : ∀ v ∈ Finset.Icc 1 100,
      ∀ n ∈ (Univ.mk (Finset.Icc 1 100) (generatedAdj r)).getAdj v, n ∈ Finset.Icc 1 100 := by
    intro v hv n hn
    rw [getAdj_mk _ _ hv] at hn
    rw [Finset.mem_Icc]
    exact hbdd v n hn
  have hTcard : (Finset.Icc 1 100 : Finset ℕ).card = 100 := by
    rw [Nat.card_Icc]
  obtain ⟨h1, h2, h3⟩ := bfsLoop_spec (Univ.mk (Finset.Icc 1 100) (generatedAdj r))
    (Finset.Icc 1 100) hadj 300 [1] {1}
    (by intro q hq; rw [List.mem_singleton.mp hq]; exact Finset.mem_singleton_self 1)
    (by intro x hx; rw [Finset.mem_singleton.mp hx]; rw [Finset.mem_Icc]; omega)
    (by intro v hv; exact Or.inl (by rw [Finset.mem_singleton.mp hv]; exact List.mem_singleton.mpr rfl))
    (by rw [hTcard]; simp)
  set S := bfsLoop (Univ.mk (Finset.Icc 1 100) (generatedAdj r)) 300 [1] {1} with hS
  have hup : ∀ i : ℕ, 1 ≤ i → i ≤ 100 → i ∈ S := by
    have hbase : (1 : ℕ) ∈ S := h1 (Finset.mem_singleton_self 1)
    intro i
    induction i with
    | zero => intro h; omega
    | succ j ihj =>
      intro h1j h2j
      by_cases hj : j = 0
      · subst hj; exact hbase
      · have hj1 : 1 ≤ j := by omega
        have hj99 : j ≤ 99 := by omega
        have hjS : j ∈ S := ihj hj1 (by omega)
        have hedge := generate_chainEdge r hj1 hj99
        rw [generateUniverse_adj] at hedge
        have hgetadj : (Univ.mk (Finset.Icc 1 100) (generatedAdj r)).getAdj j
            = generatedAdj r j :=
          getAdj_mk _ _ (by rw [Finset.mem_Icc]; omega)
        have := h3 j hjS (j + 1) (by rw [hgetadj]; exact hedge.1)
        exact this
  have hseteq : S = Finset.Icc 1 100 := by
    apply Finset.Subset.antisymm h2
    intro i hi
    rw [Finset.mem_Icc] at hi
    exact hup i hi.1 hi.2
  have hkeys : (Univ.mk (Finset.Icc 1 100) (generatedAdj r)).keys = Finset.Icc 1 100 := rfl
  rw [validateUniverse, hkeys, hTcard]
  rw [if_neg (by omega : ¬ (100 : ℕ) < 2)]
  rw [← hS, hseteq, hTcard]
  rfl

/-! ### Port selection: one sector per width-3 band, bands covering
`[1, 90]` only. -/

theorem band_disjoint {i j : ℕ} (h : i ≠ j) : Disjoint (band i) (band j) := by
  rw [Finset.disjoint_left]
  intro x hx hy
  rw [band, Finset.mem_Icc] at hx hy
  omega

theorem portDraw_eq (acc : Finset ℕ × Rng) (i : ℕ) (hi : i < 30) :
    ∃ s, s ∈ band i ∧ portDraw acc i = (insert s acc.1, (randint 0 (100 / 30 - 1) acc.2).2) := by
  have h3 : (100 : ℕ) / 30 = 3 := by norm_num
  have hge := randint_ge 0 (100 / 30 - 1) acc.2
  have hle := randint_le 0 (100 / 30 - 1) acc.2 (by omega)
  rw [h3] at hle
  refine ⟨i * (100 / 30) + (randint 0 (100 / 30 - 1) acc.2).1 + 1, ?_, ?_⟩
  · rw [band, Finset.mem_Icc, h3]
    omega
  · rw [portDraw, if_pos (by rw [h3]; omega)]

theorem portDraw_mono (acc : Finset ℕ × Rng) (i : ℕ) : acc.1 ⊆ (portDraw acc i).1 := by
  rw [portDraw]
  dsimp only
  split
  · exact Finset.subset_insert _ _
  · exact Finset.Subset.refl _

theorem selectFold_mono :
    ∀ (l : List ℕ) (acc : Finset ℕ × Rng), acc.1 ⊆ (l.foldl portDraw acc).1 := by
  intro l
  induction l with
  | nil => intro acc; exact Finset.Subset.refl _
  | cons a l ih => intro acc; exact (portDraw_mono acc a).trans (ih (portDraw acc a))

theorem selectFold_spec :
    ∀ (l : List ℕ) (S0 : Finset ℕ) (r : Rng),
      l.Nodup → (∀ i ∈ l, i < 30) → (∀ i ∈ l, Disjoint S0 (band i)) →
      (l.foldl portDraw (S0, r)).1.card = S0.card + l.length ∧
      (∀ i ∈ l, ((l.foldl portDraw (S0, r)).1 ∩ band i).card = 1) ∧
      (∀ x ∈ (l.foldl portDraw (S0, r)).1, x ∈ S0 ∨ ∃ i ∈ l, x ∈ band i) := by
  intro l
  induction l with
  | nil =>
    intro S0 r _ _ _
    refine ⟨by simp, ?_, ?_⟩
    · intro i hi; cases hi
    · intro x hx; exact Or.inl hx
  | cons a l ih =>
    intro S0 r hnd hlt hdisj
    obtain ⟨s, hsband, hdraw⟩ := portDraw_eq (S0, r) a (hlt a (List.mem_cons_self a l))
    have hstep : (a :: l).foldl portDraw (S0, r)
        = l.foldl portDraw (portDraw (S0, r) a) := rfl
    rw [hstep, hdraw]
    have hsS0 : s ∉ S0 := by
      intro hmem
      exact (Finset.disjoint_left.mp (hdisj a (List.mem_cons_self a l))) hmem hsband
    have hnd' : l.Nodup := (List.nodup_cons.mp hnd).2
    have hanotin : a ∉ l := (List.nodup_cons.mp hnd).1
    have hlt' : ∀ i ∈ l, i < 30 := fun i hi => hlt i (List.mem_cons_of_mem a hi)
    have hdisj' : ∀ i ∈ l, Disjoint (insert s S0) (band i) := by
      intro i hi
      rw [Finset.disjoint_left]
      intro x hx hxb
      rcases Finset.mem_insert.mp hx with rfl | hx
      · have hne : a ≠ i := fun he => hanotin (he ▸ hi)
        exact (Finset.disjoint_left.mp (band_disjoint hne)) hsband hxb
      · exact (Finset.disjoint_left.mp (hdisj i (List.mem_cons_of_mem a hi))) hx hxb
    obtain ⟨c1, c2, c3⟩ := ih (insert s S0) _ hnd' hlt' hdisj'
    have hcard : (insert s S0).card = S0.card + 1 := Finset.card_insert_of_not_mem hsS0
    refine ⟨by rw [c1, hcard]; simp only [List.length_cons]; omega, ?_, ?_⟩
    · intro i hi
      rcases List.mem_cons.mp hi with rfl | hi
      · have hsub : (l.foldl portDraw
            (insert s S0, (randint 0 (100 / 30 - 1) r).2)).1 ∩ band i ⊆ {s} := by
          intro x hx
          rw [Finset.mem_inter] at hx
          rcases c3 x hx.1 with hxin | ⟨j, hj, hxb⟩
          · rcases Finset.mem_insert.mp hxin with rfl | hxin
            · exact Finset.mem_singleton_self x
            · exact absurd hx.2
                (Finset.disjoint_left.mp (hdisj i (List.mem_cons_self i l)) hxin)
          · have hne : j ≠ i := fun he => hanotin (he ▸ hj)
            exact absurd hx.2 (Finset.disjoint_left.mp (band_disjoint hne) hxb)
        have hsup : s ∈ (l.foldl portDraw
            (insert s S0, (randint 0 (100 / 30 - 1) r).2)).1 ∩ band i := by
          rw [Finset.mem_inter]
          exact ⟨selectFold_mono l _ (Finset.mem_insert_self s S0), hsband⟩
        have heq : (l.foldl portDraw
            (insert s S0, (randint 0 (100 / 30 - 1) r).2)).1 ∩ band i = {s} :=
          Finset.Subset.antisymm hsub (Finset.singleton_subset_iff.mpr hsup)
        rw [heq]
        exact Finset.card_singleton s
      · exact c2 i hi
    · intro x hx
      rcases c3 x hx with hxin | ⟨j, hj, hxb⟩
      · rcases Finset.mem_insert.mp hxin with rfl | hxin
        · exact Or.inr ⟨a, List.mem_cons_self a l, hsband⟩
        · exact Or.inl hxin
      · exact Or.inr ⟨j, List.mem_cons_of_mem a hj, hxb⟩

/-- **C8** (amended).  For every random outcome `select_port_sectors`
returns exactly 30 distinct port sectors, one drawn from each of the 30
width-3 bands `[3i+1, 3i+3]` (`step = 100 // 30 = 3`); the bands are
pairwise disjoint and cover `[1, 90]` — not `[1, 100]` — so sectors
91–100 never receive a port. -/
theorem selectPortSectors_spec (r : Rng) :
    (selectPortSectors r).1.card = 30 ∧
    (∀ i, i < 30 → ((selectPortSectors r).1 ∩ band i).card = 1) ∧
    (∀ i j : ℕ, i ≠ j → Disjoint (band i) (band j)) ∧
    (Finset.range 30).biUnion band = Finset.Icc 1 90 := by
  obtain ⟨c1, c2, _⟩ := selectFold_spec (List.range 30) ∅ r (List.nodup_range 30)
    (fun i hi => List.mem_range.mp hi)
    (fun i _ => Finset.disjoint_empty_left _)
  refine ⟨?_, ?_, fun i j h => band_disjoint h, ?_⟩
  · rw [selectPortSectors, c1]
    simp
  · intro i hi
    rw [selectPortSectors]
    exact c2 i (List.mem_range.mpr hi)
  · ext x
    rw [Finset.mem_biUnion, Finset.mem_Icc]
    constructor
    · rintro ⟨i, hi, hx⟩
      rw [Finset.mem_range] at hi
      rw [band, Finset.mem_Icc] at hx
      omega
    · intro hx
      refine ⟨(x - 1) / 3, ?_, ?_⟩
      · rw [Finset.mem_range]
        omega
      · rw [band, Finset.mem_Icc]
        omega

/-- Witness for `selectPortSectors_spec` on the all-zero stream. -/
theorem selectPortSectors_spec_witness :
    (selectPortSectors rngZero).1.card = 30 ∧
    ((selectPortSectors rngZero).1 ∩ band 7).card = 1 :=
  ⟨(selectPortSectors_spec rngZero).1,
   (selectPortSectors_spec rngZero).2.1 7 (by omega)⟩

/-- **C8** counterexample: the 30 draw bands do not partition `[1, 100]` —
their union is `[1, 90]`, missing `[91, 100]` — and concretely sector 100
is never selected (here: the all-zero stream selects `{1, 4, ..., 88}`). -/
theorem selectPortSectors_cex :
    (Finset.range 30).biUnion band ≠ Finset.Icc 1 100 ∧
    100 ∉ (selectPortSectors rngZero).1 := by
  constructor
  · intro h
    have h91 : (91 : ℕ) ∈ (Finset.range 30).biUnion band := by
      rw [h, Finset.mem_Icc]
      omega
    rw [Finset.mem_biUnion] at h91
    obtain ⟨i, hi, hx⟩ := h91
    rw [Finset.mem_range] at hi
    rw [band, Finset.mem_Icc] at hx
    omega
  · decide

/-! ## Shortest paths (`universe.py`, `find_path` / `get_distance`).

`find_path` runs Dijkstra with unit edge weights over the sector dict.
`distances` maps every sector to `float('inf')` initially, embedded as
`Option ℕ` with `none` for infinity; `previous` is the predecessor map;
the `heapq` priority queue is a list from which `popMin` removes the
lexicographically smallest `(distance, sector)` pair — exactly the pair
`heappop` returns.  The `while pq` loop gets explicit fuel; every claim
proved below is conditional on the loop returning a path, so the fuel
constant only has to be generous (100000).  The reconstruction loop
`while node is not None` runs `d + 1` steps at most, because stored
distances strictly decrease along `previous` (proved in
`reconPath_spec`). -/

structure DijkState where
  dist : ℕ → Option ℕ
  prev : ℕ → Option ℕ
  pq : List (ℕ × ℕ)

/-- Lexicographic order on `(distance, sector)` pairs, the order `heapq`
uses on tuples. -/
def pairLeB (a b : ℕ × ℕ) : Bool :=
  decide (a.1 < b.1 ∨ (a.1 = b.1 ∧ a.2 ≤ b.2))

/-- `heapq.heappop`: remove the smallest pair. -/
def popMin : List (ℕ × ℕ) → Option ((ℕ × ℕ) × List (ℕ × ℕ))
  | [] => none
  | p :: ps =>
    match popMin ps with
    | none => some (p, [])
    | some (q, rest) => if pairLeB p q then some (p, ps) else some (q, p :: rest)

theorem popMin_mem : ∀ {l : List (ℕ × ℕ)} {p : ℕ × ℕ} {rest : List (ℕ × ℕ)},
    popMin l = some (p, rest) → p ∈ l ∧ ∀ x ∈ rest, x ∈ l := by
  intro l
  induction l with
  | nil => intro p rest h; cases h
  | cons a l ih =>
    intro p rest h
    rw [popMin] at h
    split at h
    · injection h with h'
      injection h' with h1 h2
      subst h1
      subst h2
      exact ⟨List.mem_cons_self _ _, fun x hx => absurd hx (List.not_mem_nil x)⟩
    · next q r hm =>
      split at h
      · injection h with h'
        injection h' with h1 h2
        subst h1
        subst h2
        exact ⟨List.mem_cons_self _ _, fun x hx => List.mem_cons_of_mem _ hx⟩
      · injection h with h'
        injection h' with h1 h2
        subst h1
        subst h2
        obtain ⟨hq, hr⟩ := ih hm
        refine ⟨List.mem_cons_of_mem a hq, ?_⟩
        intro x hx
        rcases List.mem_cons.mp hx with rfl | hx
        · exact List.mem_cons_self _ _
        · exact List.mem_cons_of_mem a (hr x hx)

/-- `distance < distances[neighbor]` with `none` as infinity. -/
def ltInfB (d : ℕ) : Option ℕ → Bool
  | none => true
  | some v => decide (d < v)

/-- The stale-entry skip `current_dist > distances[current]`. -/
def staleB (d : ℕ) : Option ℕ → Bool
  | none => false
  | some v => decide (v < d)

/-- One relaxation `distance = current_dist + 1` of a neighbor `n` of the
popped sector `c`: on improvement update `distances`, `previous` and push
the pair. -/
def relaxOne (c d : ℕ) (st : DijkState) (n : ℕ) : DijkState :=
  if ltInfB (d + 1) (st.dist n) then
    ⟨upd st.dist n (some (d + 1)), upd st.prev n (some c), st.pq ++ [(d + 1, n)]⟩
  else st

/-- The path-reconstruction loop (`while node is not None`), already in
start-to-end order (the Python code appends and reverses). -/
def reconPath (prev : ℕ → Option ℕ) : ℕ → ℕ → List ℕ
  | 0, _ => []
  | f + 1, node =>
    match prev node with
    | none => [node]
    | some p => reconPath prev f p ++ [node]

/-- The main Dijkstra loop of `find_path`. -/
def dijkstraLoop (u : Univ) (endS : ℕ) : ℕ → DijkState → Option (List ℕ)
  | 0, _ => none
  | fuel + 1, st =>
    match popMin st.pq with
    | none => none
    | some ((d, c), rest) =>
      if c = endS then some (reconPath st.prev (d + 1) endS)
      else if staleB d (st.dist c) then dijkstraLoop u endS fuel ⟨st.dist, st.prev, rest⟩
      else dijkstraLoop u endS fuel
        ((u.getAdj c).foldl (relaxOne c d) ⟨st.dist, st.prev, rest⟩)

/-- `UniverseManager.find_path`: key checks, the `start == end` shortcut,
then Dijkstra from `start` with `distances[start] = 0` and queue
`[(0, start)]`. -/
def findPath (u : Univ) (a b : ℕ) : Option (List ℕ) :=
  if a ∉ u.keys ∨ b ∉ u.keys then none
  else if a = b then some [a]
  else dijkstraLoop u b 100000
    ⟨fun v => if v = a then some 0 else none, fun _ => none, [(0, a)]⟩

/-- `UniverseManager.get_distance`: `len(path) - 1` for a non-empty path
(`if path:` is Python truthiness). -/
def getDistance (u : Univ) (a b : ℕ) : Option ℕ :=
  match findPath u a b with
  | some p => if p ≠ [] then some (p.length - 1) else none
  | none => none

/-! ### Dijkstra invariants: `previous` follows edges with strictly
decreasing stored distance, ending only at the start sector, and every
queue entry over-approximates the stored distance. -/

structure DInv (u : Univ) (a : ℕ) (st : DijkState) : Prop where
  prev_adj : ∀ v c, st.prev v = some c → v ∈ u.getAdj c
  prev_lt : ∀ v c, st.prev v = some c →
    ∃ dv dc, st.dist v = some dv ∧ st.dist c = some dc ∧ dc < dv
  prev_none : ∀ v, st.prev v = none → st.dist v = none ∨ v = a
  pq_dist : ∀ q ∈ st.pq, ∃ dv, st.dist q.2 = some dv ∧ dv ≤ q.1

theorem dinv_relaxOne (u : Univ) (a c d : ℕ) (st : DijkState) (n : ℕ)
    (hinv : DInv u a st) (hdc : ∃ dc, st.dist c = some dc ∧ dc ≤ d)
    (hn : n ∈ u.getAdj c) :
    DInv u a (relaxOne c d st n) ∧
    (∃ dc, (relaxOne c d st n).dist c = some dc ∧ dc ≤ d) := by
  obtain ⟨dc, hdcv, hdcle⟩ := hdc
  rw [relaxOne]
  split
  · next hlt =>
    have hnc : n ≠ c := by
      intro he
      subst he
      rw [hdcv] at hlt
      rw [ltInfB] at hlt
      have : d + 1 < dc := of_decide_eq_true hlt
      omega
    have hdist_lt : ∀ v, st.dist n = some v → d + 1 < v := by
      intro v hv
      rw [hv, ltInfB] at hlt
      exact of_decide_eq_true hlt
    refine ⟨⟨?_, ?_, ?_, ?_⟩, ?_⟩ <;> dsimp only
    · intro v c' hp
      by_cases hvn : v = n
      · subst hvn
        rw [upd_same] at hp
        injection hp with hp'
        subst hp'
        exact hn
      · rw [upd_ne _ _ _ hvn] at hp
        exact hinv.prev_adj v c' hp
    · intro v c' hp
      by_cases hvn : v = n
      · subst hvn
        rw [upd_same] at hp
        injection hp with hp'
        subst hp'
        refine ⟨d + 1, dc, upd_same _ _ _, ?_, by omega⟩
        rw [upd_ne _ _ _ (Ne.symm hnc)]
        exact hdcv
      · rw [upd_ne _ _ _ hvn] at hp
        obtain ⟨dv, dc', hdv, hdc', hlt'⟩ := hinv.prev_lt v c' hp
        refine ⟨dv, ?_⟩
        rw [upd_ne _ _ _ hvn]
        by_cases hcn : c' = n
        · subst hcn
          have := hdist_lt dc' hdc'
          exact ⟨d + 1, hdv, upd_same _ _ _, by omega⟩
        · exact ⟨dc', hdv, by rw [upd_ne _ _ _ hcn]; exact hdc', hlt'⟩
    · intro v hp
      by_cases hvn : v = n
      · subst hvn
        rw [upd_same] at hp
        cases hp
      · rw [upd_ne _ _ _ hvn] at hp
        rw [upd_ne _ _ _ hvn]
        exact hinv.prev_none v hp
    · intro q hq
      rcases List.mem_append.mp hq with hq | hq
      · obtain ⟨dv, hdv, hdvle⟩ := hinv.pq_dist q hq
        by_cases hqn : q.2 = n
        · rw [hqn] at hdv ⊢
          have := hdist_lt dv hdv
          exact ⟨d + 1, upd_same _ _ _, by omega⟩
        · exact ⟨dv, by rw [upd_ne _ _ _ hqn]; exact hdv, hdvle⟩
      · rw [List.mem_singleton.mp hq]
        exact ⟨d + 1, upd_same _ _ _, le_refl _⟩
    · refine ⟨dc, ?_, hdcle⟩
      rw [upd_ne _ _ _ (Ne.symm hnc)]
      exact hdcv
  · exact ⟨hinv, dc, hdcv, hdcle⟩

theorem dinv_relaxAll (u : Univ) (a c d : ℕ) :
    ∀ (ns : List ℕ) (st : DijkState), DInv u a st →
      (∃ dc, st.dist c = some dc ∧ dc ≤ d) →
      (∀ n ∈ ns, n ∈ u.getAdj c) →
      DInv u a (ns.foldl (relaxOne c d) st) := by
  intro ns
  induction ns with
  | nil => intro st hinv _ _; exact hinv
  | cons m ns ih =>
    intro st hinv hdc hns
    obtain ⟨hinv', hdc'⟩ :=
      dinv_relaxOne u a c d st m hinv hdc (hns m (List.mem_cons_self _ _))
    exact ih (relaxOne c d st m) hinv' hdc'
      (fun n hn => hns n (List.mem_cons_of_mem m hn))

theorem reconPath_spec (u : Univ) (a : ℕ) (st : DijkState) (hinv : DInv u a st) :
    ∀ (fuel node dv : ℕ), st.dist node = some dv → dv < fuel →
      reconPath st.prev fuel node ≠ [] ∧
      (reconPath st.prev fuel node).head? = some a ∧
      (reconPath st.prev fuel node).getLast? = some node ∧
      List.Chain' (fun x y => y ∈ u.getAdj x) (reconPath st.prev fuel node) := by
  intro fuel
  induction fuel with
  | zero => intro node dv _ h; omega
  | succ f ih =>
    intro node dv h1 h2
    cases hp : st.prev node with
    | none =>
      rcases hinv.prev_none node hp with hd | he
      · rw [h1] at hd
        cases hd
      · subst he
        rw [reconPath, hp]
        refine ⟨by simp, rfl, rfl, List.chain'_singleton _⟩
    | some pn =>
      obtain ⟨dv', dc, hdv, hdc, hlt⟩ := hinv.prev_lt node pn hp
      rw [h1] at hdv
      injection hdv with he
      subst he
      obtain ⟨hne, hhead, hlast, hchain⟩ := ih pn dc hdc (by omega)
      rw [reconPath, hp]
      dsimp only
      obtain ⟨x, xs, hx⟩ := List.exists_cons_of_ne_nil hne
      refine ⟨by simp, ?_, List.getLast?_concat _, ?_⟩
      · rw [hx] at hhead ⊢
        simpa using hhead
      · rw [List.chain'_append]
        refine ⟨hchain, List.chain'_singleton _, ?_⟩
        intro x' hx' y' hy'
        rw [hlast] at hx'
        injection hx' with he1
        subst he1
        rw [List.head?_cons] at hy'
        injection hy' with he2
        subst he2
        exact hinv.prev_adj node pn hp

theorem dijkstraLoop_spec (u : Univ) (a endS : ℕ) :
    ∀ (fuel : ℕ) (st : DijkState) (p : List ℕ), DInv u a st →
      dijkstraLoop u endS fuel st = some p →
      p ≠ [] ∧ p.head? = some a ∧ p.getLast? = some endS ∧
      List.Chain' (fun x y => y ∈ u.getAdj x) p := by
  intro fuel
  induction fuel with
  | zero => intro st p _ h; cases h
  | succ fuel ih =>
    intro st p hinv hrun
    rw [dijkstraLoop] at hrun
    split at hrun
    · cases hrun
    · next d c rest hpop =>
      obtain ⟨hmem, hrest⟩ := popMin_mem hpop
      split at hrun
      · next hc =>
        subst hc
        injection hrun with hp
        obtain ⟨dv, hdv, hdvle⟩ := hinv.pq_dist (d, c) hmem
        rw [← hp]
        exact reconPath_spec u a st hinv (d + 1) c dv hdv (by omega)
      · have hrest_inv : DInv u a ⟨st.dist, st.prev, rest⟩ :=
          ⟨hinv.prev_adj, hinv.prev_lt, hinv.prev_none,
           fun q hq => hinv.pq_dist q (hrest q hq)⟩
        split at hrun
        · exact ih _ p hrest_inv hrun
        · obtain ⟨dv, hdv, hdvle⟩ := hinv.pq_dist (d, c) hmem
          refine ih _ p ?_ hrun
          exact dinv_relaxAll u a c d (u.getAdj c) ⟨st.dist, st.prev, rest⟩
            hrest_inv ⟨dv, hdv, hdvle⟩ (fun n hn => hn)

/-- Everything `find_path` guarantees about a returned path; claims C5 and
C6 both draw on this. -/
theorem findPath_props (u : Univ) (a b : ℕ) (p : List ℕ)
    (h : findPath u a b = some p) :
    p ≠ [] ∧ p.head? = some a ∧ p.getLast? = some b ∧
    List.Chain' (fun x y => y ∈ u.getAdj x) p ∧
    a ∈ u.keys ∧ b ∈ u.keys ∧ (a = b → p = [a]) := by
  rw [findPath] at h
  split at h
  · cases h
  · next hkeys =>
    push_neg at hkeys
    split at h
    · next hab =>
      subst hab
      injection h with hp
      subst hp
      exact ⟨by simp, rfl, rfl, List.chain'_singleton _, hkeys.1, hkeys.2,
        fun _ => rfl⟩
    · next hab =>
      have hinit : DInv u a ⟨fun v => if v = a then some 0 else none, fun _ => none, [(0, a)]⟩ := by
        refine ⟨?_, ?_, ?_, ?_⟩
        · intro v c hp
          cases hp
        · intro v c hp
          cases hp
        · intro v _
          dsimp only
          by_cases hva : v = a
          · exact Or.inr hva
          · rw [if_neg hva]
            exact Or.inl rfl
        · intro q hq
          rw [List.mem_singleton.mp hq]
          exact ⟨0, by dsimp only; rw [if_pos rfl], le_refl 0⟩
      obtain ⟨h1, h2, h3, h4⟩ := dijkstraLoop_spec u a b 100000 _ p hinit h
      exact ⟨h1, h2, h3, h4, hkeys.1, hkeys.2, fun he => absurd he hab⟩

/-- **C5.**  Whenever `find_path(a, b)` returns a path, the path is
non-empty, starts at `a`, ends at `b`, every consecutive pair of sectors on
it is directly connected, `get_distance(a, b)` returns its length minus
one (so distance + 1 = path length), and for `a = b` the path is the
singleton `[a]` with distance 0. -/
theorem findPath_getDistance_spec (u : Univ) (a b : ℕ) (p : List ℕ)
    (h : findPath u a b = some p) :
    p ≠ [] ∧ p.head? = some a ∧ p.getLast? = some b ∧
    List.Chain' (fun x y => y ∈ u.getAdj x) p ∧
    getDistance u a b = some (p.length - 1) ∧
    (p.length - 1) + 1 = p.length ∧
    (a = b → p = [a] ∧ getDistance u a b = some 0) := by
  obtain ⟨h1, h2, h3, h4, _, _, h7⟩ := findPath_props u a b p h
  have hdist : getDistance u a b = some (p.length - 1) := by
    rw [getDistance, h]
    dsimp only
    rw [if_pos h1]
  have hlen : (p.length - 1) + 1 = p.length := by
    have := List.length_pos.mpr h1
    omega
  refine ⟨h1, h2, h3, h4, hdist, hlen, ?_⟩
  intro hab
  have hp := h7 hab
  refine ⟨hp, ?_⟩
  rw [hdist, hp]
  rfl

/-- A concrete universe for the path witnesses: the 100 sectors with the
small explicit adjacency 1—2—3. -/
def chainUniv : Univ :=
  ⟨Finset.Icc 1 100,
   fun s => if s = 1 then [2] else if s = 2 then [1, 3] else if s = 3 then [2] else []⟩

theorem chainUniv_path : findPath chainUniv 1 3 = some [1, 2, 3] := by decide

/-- Witness for `findPath_getDistance_spec` on `chainUniv`. -/
theorem findPath_getDistance_spec_witness :
    [1, 2, 3] ≠ ([] : List ℕ) ∧ ([1, 2, 3] : List ℕ).head? = some 1 ∧
    ([1, 2, 3] : List ℕ).getLast? = some 3 ∧
    List.Chain' (fun x y => y ∈ chainUniv.getAdj x) [1, 2, 3] ∧
    getDistance chainUniv 1 3 = some (([1, 2, 3] : List ℕ).length - 1) ∧
    (([1, 2, 3] : List ℕ).length - 1) + 1 = ([1, 2, 3] : List ℕ).length ∧
    ((1 : ℕ) = 3 → [1, 2, 3] = [(1 : ℕ)] ∧ getDistance chainUniv 1 3 = some 0) :=
  findPath_getDistance_spec chainUniv 1 3 [1, 2, 3] chainUniv_path

/-! ## Warp execution (`tradewars_plugin.py`, `_execute_warp`).

The handler validates the destination range, asks `find_path` for a route,
compares the required turns `len(path) - 1` against the player's balance,
and on success moves the ship, decrements turns, increments the warp
counter and re-enters `SECTOR_VIEW`.  The outcome records which formatter
message was produced, the rows afterwards, and the session state. -/

inductive WarpMsg
  | invalidSector
  | unreachable
  | notEnoughTurns (needed : ℕ) (avail : ℤ)
  | warped

structure WarpOutcome where
  msg : WarpMsg
  player : PlayerRow
  ship : ShipRow
  state : String

/-- `TradeWarsPlugin._execute_warp` (the `not path` truthiness covers both
`None` and an empty list). -/
def executeWarp (u : Univ) (player : PlayerRow) (ship : ShipRow)
    (state0 : String) (dest : ℕ) : WarpOutcome :=
  if dest < 1 ∨ 100 < dest then ⟨.invalidSector, player, ship, state0⟩
  else
    match findPath u ship.current_sector dest with
    | none => ⟨.unreachable, player, ship, state0⟩
    | some path =>
      if path = [] then ⟨.unreachable, player, ship, state0⟩
      else
        if player.turns < ((path.length - 1 : ℕ) : ℤ) then
          ⟨.notEnoughTurns (path.length - 1) player.turns, player, ship, state0⟩
        else
          ⟨.warped,
           { player with turns := player.turns - ((path.length - 1 : ℕ) : ℤ),
                         total_warps := player.total_warps + 1 },
           { ship with current_sector := dest },
           "SECTOR_VIEW"⟩

/-- **C6.**  For a warp request to a destination reachable by a path with
`k = len(path) - 1` edges: with fewer than `k` turns the warp is rejected
with the insufficient-turns message and the player row, ship row and
session state unchanged; otherwise turns decrease by exactly `k`, the ship
moves to the destination, `total_warps` increases by exactly 1, and the
session returns to `SECTOR_VIEW`. -/
theorem executeWarp_spec (u : Univ) (player : PlayerRow) (ship : ShipRow)
    (state0 : String) (dest : ℕ) (p : List ℕ)
    (hkeys : u.keys = Finset.Icc 1 100)
    (hpath : findPath u ship.current_sector dest = some p) :
    (player.turns < ((p.length - 1 : ℕ) : ℤ) →
      executeWarp u player ship state0 dest =
        ⟨.notEnoughTurns (p.length - 1) player.turns, player, ship, state0⟩) ∧
    (((p.length - 1 : ℕ) : ℤ) ≤ player.turns →
      executeWarp u player ship state0 dest =
        ⟨.warped,
         { player with turns := player.turns - ((p.length - 1 : ℕ) : ℤ),
                       total_warps := player.total_warps + 1 },
         { ship with current_sector := dest },
         "SECTOR_VIEW"⟩) := by
  obtain ⟨hne, _, _, _, _, hdk, _⟩ := findPath_props u ship.current_sector dest p hpath
  have hdest : ¬ (dest < 1 ∨ 100 < dest) := by
    rw [hkeys, Finset.mem_Icc] at hdk
    omega
  constructor
  · intro hturns
    rw [executeWarp, if_neg hdest, hpath]
    dsimp only
    rw [if_neg hne, if_pos hturns]
  · intro hturns
    rw [executeWarp, if_neg hdest, hpath]
    dsimp only
    rw [if_neg hne, if_neg (not_lt.mpr hturns)]

/-- Witness for `executeWarp_spec` on `chainUniv`: warping 1 → 3 with 5
turns spends 2 turns and bumps the warp counter. -/
theorem executeWarp_spec_witness :
    executeWarp chainUniv ⟨10000, 5, 0, 2, 0⟩ ⟨1, 20, fun _ => 0⟩ "NAVIGATION" 3 =
      ⟨.warped, ⟨10000, 3, 0, 3, 0⟩, ⟨3, 20, fun _ => 0⟩, "SECTOR_VIEW"⟩ :=
  (executeWarp_spec chainUniv ⟨10000, 5, 0, 2, 0⟩ ⟨1, 20, fun _ => 0⟩
    "NAVIGATION" 3 [1, 2, 3] rfl chainUniv_path).2 (by decide)

end BBMesh
